import Mathlib

/-!
Verification of the schema-directed incremental XML parser of `llmxml`
(`src/llmxml/parser2.py`), the implementation described by the
specification's §§3–4 (shape descriptors, candidate tag resolution, the
recursive matcher `_recurse`, and default completion `_fill_with_empty`).

The embedding works on `List Char` buffers.  Python dictionaries are
modelled as insertion-ordered association lists (`dinsert` reproduces
`d[k] = v`: replace in place if the key is present, else append).  The
descriptor dictionaries produced by `inspect_type_annotation` are the
inductive `TD`; the parsed values are the inductive `Value`.  Exceptions
raised by the Python code are modelled with `Except PErr`.

Recursive functions that walk the buffer or a descriptor are written with
an explicit fuel parameter (structural recursion on `Nat`) so that every
definition is executable inside the kernel; `parse_xml` supplies fuel that
is ample for the recursion depth, and general theorems quantify over any
sufficiently large fuel.
-/

set_option autoImplicit false

namespace LlmXml

/-! ## Python dictionaries as insertion-ordered association lists -/

/-- Python `d[k] = v`: if `k` is already a key, replace its value in place;
otherwise append the new binding at the end. -/
def dinsert {α : Type} : List (String × α) → String → α → List (String × α)
  | [], k, v => [(k, v)]
  | (k1, v1) :: t, k, v =>
    if k1 = k then (k1, v) :: t else (k1, v1) :: dinsert t k v

/-- Python `d[k]` / `d.get(k)`: first binding of the key. -/
def dlookup {α : Type} : List (String × α) → String → Option α
  | [], _ => none
  | (k1, v1) :: t, k => if k1 = k then some v1 else dlookup t k

/-- Python `d1 | d2` (also `d1 |= d2`): insert every binding of `d2`
into `d1`, in order, so later bindings override earlier ones. -/
def dmerge {α : Type} (d1 d2 : List (String × α)) : List (String × α) :=
  d2.foldl (fun acc kv => dinsert acc kv.1 kv.2) d1

/-! ## Character-list utilities shared by the parser

The Python code uses `re.search(pattern, s, pos)` for literal tag strings,
`str.rfind(sub, 0, end)`, and string slices; these are reproduced here on
`List Char`. -/

/-- Helper for `findSubFrom`: index of the first occurrence of `sub` in `t`,
offset by `i`. -/
def findSubAux (sub : List Char) : List Char → Nat → Option Nat
  | t, i =>
    if sub.isPrefixOf t then some i
    else
      match t with
      | [] => none
      | _ :: t2 => findSubAux sub t2 (i + 1)

/-- Python `re.search(re.escape-style literal, text, pos)`: position of the
earliest occurrence of `sub` in `text` at or after `pos`. -/
def findSubFrom (text sub : List Char) (pos : Nat) : Option Nat :=
  (findSubAux sub (text.drop pos) 0).map (· + pos)

/-- Helper for `rfindSub`: last occurrence scanning left to right. -/
def rfindAux (sub : List Char) : List Char → Nat → Option Nat → Option Nat
  | t, i, best =>
    let best2 := if sub.isPrefixOf t then some i else best
    match t with
    | [] => best2
    | _ :: t2 => rfindAux sub t2 (i + 1) best2

/-- Python `text.rfind(sub, 0, endPos)`: start of the last occurrence of
`sub` lying entirely inside `text[0:endPos]`, or `none` (Python `-1`). -/
def rfindSub (text sub : List Char) (endPos : Nat) : Option Nat :=
  rfindAux sub (text.take endPos) 0 none

/-- Embeds `_clean_xml` (parser2.py lines 88–91): strip everything before
the first `<` (`re.sub(r"^[^<]*", "", s)`) and everything after the last
`>` (`re.sub(r"[^>]*$", "", s)`). -/
def cleanXml (t : List Char) : List Char :=
  let t1 := t.dropWhile (fun c => c ≠ '<')
  ((t1.reverse).dropWhile (fun c => c ≠ '>')).reverse

/-- Helper for `camelToSnake`: `i` is the index of the current character,
`prevUpper` whether the previous character was uppercase. -/
def camelSnakeAux : List Char → Nat → Bool → List Char
  | [], _, _ => []
  | c :: rest, i, prevUpper =>
    if c.isUpper then
      if i = 0 || (prevUpper && i ≠ 1) then
        c.toLower :: camelSnakeAux rest (i + 1) true
      else
        '_' :: c.toLower :: camelSnakeAux rest (i + 1) true
    else
      c.toLower :: camelSnakeAux rest (i + 1) false

/-- Embeds `camel_to_snake` (parser2.py lines 14–15):
`re.sub("(?!^)([A-Z]+)", r"_\1", s).lower()`.  A maximal run of uppercase
letters is preceded by an underscore; a run starting at index 0 cannot be
matched there, so the underscore lands before index 1 instead. -/
def camelToSnake (s : String) : String :=
  ⟨camelSnakeAux s.data 0 false⟩

/-! ## The data model

`Ann` is the model definition handed to `inspect_type_annotation`: a
Python type annotation built from the four primitive kinds, `NoneType`,
`list[...]` (the builtin generic, `types.GenericAlias`), `Union[...]`
(including `Optional[...]` as a union with `NoneType`), and a pydantic
`BaseModel` class with its declared name and ordered fields.

`TD` is the dictionary tree produced by `inspect_type_annotation`: every
shape except a union carries a `"name"` entry; a union dictionary has no
`"name"` key (parser2.py line 58). -/

/-- Primitive kinds (`str`, `int`, `float`, `bool`). -/
inductive PKind : Type where
  | ps : PKind
  | pi : PKind
  | pf : PKind
  | pb : PKind
deriving DecidableEq

mutual
/-- A Python type annotation as seen by `inspect_type_annotation`:
primitives, `NoneType`, `list[...]` (a `types.GenericAlias`),
`Union[...]`, and a pydantic model class with its declared name and
ordered fields. -/
inductive Ann : Type where
  | aprim : PKind → Ann
  | anone : Ann
  | alist : Ann → Ann
  | aunion : AnnL → Ann
  | amodel : String → FieldL → Ann
/-- A list of union branches. -/
inductive AnnL : Type where
  | nil : AnnL
  | cons : Ann → AnnL → AnnL
/-- The ordered `model_fields` of a pydantic model: field name and
annotation. -/
inductive FieldL : Type where
  | nil : FieldL
  | cons : String → Ann → FieldL → FieldL
end

/-- View of a branch list as an ordinary list. -/
def AnnL.toList : AnnL → List Ann
  | .nil => []
  | .cons a t => a :: t.toList

/-- View of a field list as an ordinary list. -/
def FieldL.toList : FieldL → List (String × Ann)
  | .nil => []
  | .cons n a t => (n, a) :: t.toList

/-- Builds a branch list from an ordinary list (for concrete models). -/
def AnnL.ofList : List Ann → AnnL
  | [] => .nil
  | a :: t => .cons a (AnnL.ofList t)

/-- Builds a field list from an ordinary list (for concrete models). -/
def FieldL.ofList : List (String × Ann) → FieldL
  | [] => .nil
  | (n, a) :: t => .cons n a (FieldL.ofList t)

mutual
/-- Node count of an annotation, used to furnish ample fuel. -/
def szA : Ann → Nat
  | .aprim _ => 1
  | .anone => 1
  | .alist a => 1 + szA a
  | .aunion as => 1 + szAL as
  | .amodel _ fs => 1 + szFL fs
/-- Node count of a branch list. -/
def szAL : AnnL → Nat
  | .nil => 0
  | .cons a t => szA a + szAL t
/-- Node count of a field list. -/
def szFL : FieldL → Nat
  | .nil => 0
  | .cons _ a t => szA a + szFL t
end

mutual
/-- The type-dictionary tree built by `inspect_type_annotation`.  Each
constructor except `tunion` records the `"name"` entry of the dictionary;
a union dictionary has no `"name"` key. -/
inductive TD : Type where
  | prim : PKind → String → TD
  | tnone : String → TD
  | tlist : String → TDL → TD
  | tunion : TDL → TD
  | tmodel : String → TDL → TD
/-- The `"args"` list of a type dictionary. -/
inductive TDL : Type where
  | nil : TDL
  | cons : TD → TDL → TDL
end

/-- View of an `"args"` list as an ordinary list. -/
def TDL.toList : TDL → List TD
  | .nil => []
  | .cons a t => a :: t.toList

/-- Builds an `"args"` list from an ordinary list. -/
def TDL.ofList : List TD → TDL
  | [] => .nil
  | a :: t => .cons a (TDL.ofList t)

mutual
/-- Node count of a type dictionary, used to furnish ample fuel. -/
def szTD : TD → Nat
  | .prim _ _ => 1
  | .tnone _ => 1
  | .tlist _ as => 1 + szTDL as
  | .tunion as => 1 + szTDL as
  | .tmodel _ as => 1 + szTDL as
/-- Node count of an `"args"` list. -/
def szTDL : TDL → Nat
  | .nil => 0
  | .cons a t => szTD a + szTDL t
end

/-- A parsed value.  `vfzero` is the float `0.0`, the only float literal
the parser itself ever produces (`_get_default_for_primitive`). -/
inductive Value : Type where
  | vs : List Char → Value
  | vi : Int → Value
  | vfzero : Value
  | vb : Bool → Value
  | vnone : Value
  | vd : List (String × Value) → Value
  | vl : List Value → Value

/-- A Python dict of parsed values, e.g. `attribute_dict`. -/
abbrev VDict := List (String × Value)

/-- The exceptions the Python code can raise (`AssertionError`, `KeyError`,
`TypeError`, `AttributeError`, `IndexError`, pydantic's `ValidationError`),
plus `fuelOut` for exhausted fuel (never reached at the fuel amounts
`parse_xml` supplies). -/
inductive PErr : Type where
  | schemaAssert : PErr
  | keyErr : String → PErr
  | typeErr : PErr
  | attrErr : PErr
  | idxErr : PErr
  | validationErr : PErr
  | fuelOut : PErr
deriving DecidableEq

/-- Python truthiness of a parsed value. -/
def Value.truthy : Value → Bool
  | .vs s => !s.isEmpty
  | .vi n => n != 0
  | .vfzero => false
  | .vb b => b
  | .vnone => false
  | .vd d => !d.isEmpty
  | .vl l => !l.isEmpty

/-- The `"name"` entry of a type dictionary; `none` for a union, which has
no `"name"` key. -/
def tdName? : TD → Option String
  | .prim _ n => some n
  | .tnone n => some n
  | .tlist n _ => some n
  | .tunion _ => none
  | .tmodel n _ => some n

/-- Python `type_dict.get("name", "")`. -/
def tdNameD (td : TD) : String := (tdName? td).getD ""

/-- Python `type_dict.get("args", [])`. -/
def tdArgs : TD → List TD
  | .prim _ _ => []
  | .tnone _ => []
  | .tlist _ as => as.toList
  | .tunion as => as.toList
  | .tmodel _ as => as.toList

/-- Embeds `_is_list_type` (parser2.py lines 94–103): only a
`types.GenericAlias` with origin `list` (our `tlist`) qualifies. -/
def isListTD : TD → Bool
  | .tlist _ _ => true
  | _ => false

/-- Embeds `_is_pydantic_model` (parser2.py lines 105–106). -/
def isModelTD : TD → Bool
  | .tmodel _ _ => true
  | _ => false

/-- Tests whether the dictionary's `origin` is `NoneType`. -/
def isNoneTD : TD → Bool
  | .tnone _ => true
  | _ => false

/-- One step of the dict comprehension of `field_names_at_level`. -/
def fnalStep (acc : List (String × TD)) (a : TD) : List (String × TD) :=
  match tdName? a with
  | some n => if isNoneTD a then acc else dinsert acc n a
  | none => acc

/-- Embeds `field_names_at_level` (parser2.py lines 123–124): the dict
comprehension `{arg["name"]: arg for arg in args if "name" in arg and
arg["origin"] is not NoneType}`. -/
def fieldNamesAtLevel (args : List TD) : List (String × TD) :=
  args.foldl fnalStep []

/-- One step of the `second_level |=` loop of `_get_possible_opening_tags`
(parser2.py lines 130–132). -/
def uflatStep (acc : List (String × TD)) (a : TD) : List (String × TD) :=
  match tdName? a with
  | some _ => acc
  | none => dmerge acc (fieldNamesAtLevel (tdArgs a))

/-- Embeds `_get_possible_opening_tags` (parser2.py lines 122–135): the
named direct arguments, overridden by one level of flattening of the
unnamed (union) arguments, minus the `seen_tags`. -/
def possibleOpeningTags (td : TD) (seen : List String) : List (String × TD) :=
  let args := tdArgs td
  let first := fieldNamesAtLevel args
  let second := args.foldl uflatStep []
  let combined := dmerge first second
  combined.filter (fun kv => !(seen.contains kv.1))

/-- Embeds `_get_default_for_primitive` (parser2.py lines 138–148); the
fall-through (`ALERT`) branch returns Python `None`. -/
def defaultForPrim : TD → Value
  | .prim .ps _ => .vs []
  | .prim .pi _ => .vi 0
  | .prim .pf _ => .vfzero
  | .prim .pb _ => .vb false
  | _ => .vnone

/-- Helper for `isFieldOptionalTD`: the `for arg in args` loop of
`_is_field_optional`.  The two impossible-input cases (an empty union,
whose `union_args[0]` would raise `IndexError`, and a union whose first
branch is itself unnamed, whose `["name"]` would raise `KeyError`) do not
occur in dictionaries built by `inspect_type_annotation` from supported
models; they are rendered as `false`. -/
def isFieldOptionalGo : List TD → String → Bool
  | [], _ => false
  | a :: rest, field =>
    match a with
    | .tunion uargs =>
      match uargs.toList with
      | [] => false
      | u0 :: _ =>
        match tdName? u0 with
        | none => false
        | some n =>
          if n = field then uargs.toList.any isNoneTD
          else isFieldOptionalGo rest field
    | _ => isFieldOptionalGo rest field

/-- Embeds `_is_field_optional` (parser2.py lines 109–119), as declared:
it expects a TYPE dictionary and reports whether `field` is a union slot
containing `NoneType`. -/
def isFieldOptionalTD (type_dict : TD) (field : String) : Bool :=
  isFieldOptionalGo (tdArgs type_dict) field

/-- Python `sub in s` for strings: substring containment. -/
def containsSub (s sub : List Char) : Bool :=
  (findSubFrom s sub 0).isSome

/-- Python `union_arg["origin"] is NoneType` from the `any` generator of
`_is_field_optional`, applied to a PARSED value `w` (the function received
the parsed value dict, so `union_args` holds parsed content): subscripting
a dict raises `KeyError` unless a field is literally named `origin`, and a
parsed field value is data, never the class `NoneType`, so the identity
test is `False`; subscripting any non-dict parsed value with a string
raises `TypeError`. -/
def originIsNone (w : Value) : Except PErr Bool :=
  match w with
  | .vd wd =>
    match dlookup wd "origin" with
    | none => .error (.keyErr "origin")
    | some _ => .ok false
  | _ => .error .typeErr

/-- The `any(union_arg["origin"] is NoneType for union_arg in union_args)`
of `_is_field_optional` (parser2.py line 116), with Python's
short-circuiting and error propagation. -/
def anyOriginList : List Value → Except PErr Bool
  | [] => .ok false
  | w :: rest =>
    match originIsNone w with
    | .error e => .error e
    | .ok true => .ok true
    | .ok false => anyOriginList rest

/-- One iteration of the `for arg in args` loop of `_is_field_optional`
(parser2.py lines 111–116) on a parsed list element `e`: `.ok none` is
Python falling through to the next iteration, `.ok (some b)` is `return b`,
`.error` an uncaught exception.  A dict element with a `"name"` key skips
the body (`"name" in arg` tests dict KEYS); otherwise
`arg.get("args", [])` is subscripted at `[0]["name"]` — `IndexError` on an
absent/empty `args` or an empty string, `TypeError` on subscripting a
character or any non-dict head, `KeyError "0"` on a dict, `KeyError "name"`
on a dict head without that key — and a non-string `["name"]` value
compares unequal to `field`, continuing the loop.  A string element tests
`"name" not in arg` as substring containment and reaches `.get`
(`AttributeError`) when absent; a list element tests membership of the
string `"name"`; a scalar makes the `in` itself raise `TypeError`. -/
def ifoElemStep (field : String) (e : Value) : Except PErr (Option Bool) :=
  match e with
  | .vd ed =>
    if (dlookup ed "name").isSome then .ok none
    else
      match (dlookup ed "args").getD (.vl []) with
      | .vl [] => .error .idxErr
      | .vl (u0 :: rest) =>
        match u0 with
        | .vd ud =>
          match dlookup ud "name" with
          | none => .error (.keyErr "name")
          | some (.vs s) =>
            if s = field.data then
              match anyOriginList (u0 :: rest) with
              | .error er => .error er
              | .ok b => .ok (some b)
            else .ok none
          | some _ => .ok none
        | _ => .error .typeErr
      | .vs [] => .error .idxErr
      | .vs (_ :: _) => .error .typeErr
      | .vd _ => .error (.keyErr "0")
      | .vi _ | .vb _ | .vfzero | .vnone => .error .typeErr
  | .vs s => if containsSub s "name".data then .ok none else .error .attrErr
  | .vl xs =>
    if xs.any (fun w =>
        match w with
        | .vs s => s = "name".data
        | _ => false)
    then .ok none else .error .attrErr
  | .vi _ | .vb _ | .vfzero | .vnone => .error .typeErr

/-- The `for arg in args` loop of `_is_field_optional`, iterating a parsed
LIST bound to the key `"args"`. -/
def ifoLoop (field : String) : List Value → Except PErr Bool
  | [] => .ok false
  | e :: rest =>
    match ifoElemStep field e with
    | .error er => .error er
    | .ok (some b) => .ok b
    | .ok none => ifoLoop field rest

/-- The same loop when `parsed["args"]` is itself a parsed DICT: Python
iterates its keys in insertion order; a key containing `"name"` as a
substring skips the body, any other key reaches `key.get` and raises
`AttributeError`. -/
def ifoKeysLoop : List (String × Value) → Except PErr Bool
  | [] => .ok false
  | (k, _) :: rest =>
    if containsSub k.data "name".data then ifoKeysLoop rest
    else .error .attrErr

/-- The call `_is_field_optional(parsed_dict, unseen_tag)` actually made by
`_fill_with_empty` (parser2.py line 235) passes the parsed VALUE dictionary
as `type_dict`.  When the parsed dict has no `"args"` key,
`type_dict.get("args", [])` is `[]`, the loop body never runs, and the
function returns `False`.  When a model field literally named `args` has
been parsed or defaulted, the loop iterates its VALUE: a scalar (int,
float, bool, `None`) is not iterable (`TypeError`); a non-empty string
iterates characters, each of which fails the substring test and reaches
`.get` (`AttributeError`); a dict iterates keys (`ifoKeysLoop`); a list
iterates elements through the loop body (`ifoLoop`). -/
def isFieldOptionalAsCalled (parsed : VDict) (field : String) :
    Except PErr Bool :=
  match dlookup parsed "args" with
  | none => .ok false
  | some (.vl xs) => ifoLoop field xs
  | some (.vs []) => .ok false
  | some (.vs (_ :: _)) => .error .attrErr
  | some (.vd d2) => ifoKeysLoop d2
  | some (.vi _) | some (.vb _) | some .vfzero | some .vnone => .error .typeErr

/-- The completion loop of `_fill_with_empty` over the candidate list, with
the nested-model completion passed in as `fill`: the optionality probe may
raise (propagated), an optional verdict skips the field, and the
`if`/`elif` chain inserts the default — a union falls through every branch
(`isinstance(origin, type)` is false for a `typing.Union` object),
inserting nothing. -/
def fillGo (fill : TD → Except PErr VDict) :
    List (String × TD) → VDict → Except PErr VDict
  | [], acc => .ok acc
  | kc :: rest, acc =>
    match isFieldOptionalAsCalled acc kc.1 with
    | .error e => .error e
    | .ok true => fillGo fill rest acc
    | .ok false =>
      match kc.2 with
      | .tmodel _ _ =>
        match fill kc.2 with
        | .error e => .error e
        | .ok w => fillGo fill rest (dinsert acc kc.1 (.vd w))
      | .tlist _ _ => fillGo fill rest (dinsert acc kc.1 (.vl []))
      | .tunion _ => fillGo fill rest acc
      | _ => fillGo fill rest (dinsert acc kc.1 (defaultForPrim kc.2))

/-- Embeds `_fill_with_empty` (parser2.py lines 233–245).  The candidate
map is computed once from the keys present in `parsed_dict`, while the
optionality probe receives the dict as mutated by the earlier iterations;
any exception the probe raises propagates to the caller. -/
def fillWithEmpty : Nat → VDict → TD → Except PErr VDict
  | 0, d, _ => .ok d
  | f + 1, d, td =>
    fillGo (fun c => fillWithEmpty f [] c)
      (possibleOpeningTags td (d.map Prod.fst)) d

/-! ## The descriptor builder -/

/-- Error-propagating map, the `Except` unfolding of the list traversals
in `inspect_type_annotation` and of pydantic's field loop. -/
def mapExcept {α β : Type} (g : α → Except PErr β) : List α → Except PErr (List β)
  | [] => .ok []
  | a :: t =>
    match g a with
    | .error e => .error e
    | .ok b => (mapExcept g t).map (fun bs => b :: bs)

/-- The condition of the assertion guarding the `types.GenericAlias`
(list) branch of `inspect_type_annotation` (parser2.py lines 34–38):
an argument is acceptable iff it has an `__origin__` (another generic —
`alist`/`aunion`) or is a pydantic model; a bare primitive or `NoneType`
trips the assertion. -/
def isBarePrimAnn : Ann → Bool
  | .aprim _ => true
  | .anone => true
  | _ => false

/-- Embeds `inspect_type_annotation` (parser2.py lines 18–85), with the
failed assertion of line 34 modelled as the error `schemaAssert` (the
`SchemaError` of the specification).  The list branch keeps the passed
name and inspects its argument with the default name `""`; the union
branch snake-cases the passed name and forwards it to every branch; the
model branch ignores the passed name and uses the snake-cased class name
(line 66). -/
def inspectTD : Nat → Ann → String → Except PErr TD
  | 0, _, _ => .error .fuelOut
  | _ + 1, .aprim k, name => .ok (.prim k name)
  | _ + 1, .anone, name => .ok (.tnone name)
  | f + 1, .alist a, name =>
    if isBarePrimAnn a then .error .schemaAssert
    else (inspectTD f a "").map (fun t => .tlist name (.cons t .nil))
  | f + 1, .aunion as, name =>
    (mapExcept (fun a => inspectTD f a (camelToSnake name)) as.toList).map
      (fun ts => .tunion (TDL.ofList ts))
  | f + 1, .amodel cname fs, _ =>
    (mapExcept (fun (p : String × Ann) => inspectTD f p.2 p.1) fs.toList).map
      (fun ts => .tmodel (camelToSnake cname) (TDL.ofList ts))

/-! ## The incremental matcher `_recurse` -/

/-- The literal pattern `<name>` used by the opening-tag regex. -/
def openTagC (nm : String) : List Char := '<' :: (nm.data ++ ['>'])

/-- The literal pattern `</name>` used by `close_tag_regex`. -/
def closeTagC (nm : String) : List Char := '<' :: '/' :: (nm.data ++ ['>'])

/-- The search for `opening_match` (parser2.py lines 167–171): earliest
occurrence, at or after `pos`, of `<k>` for any candidate `k`; `none` when
the candidate map is empty.  Tag names are `\w+`, so two distinct
candidates can never match at the same position and the fold's tie-break
is immaterial. -/
def bestOpen (text : List Char) (pos : Nat) (cands : List (String × TD)) :
    Option (Nat × String × TD) :=
  cands.foldl
    (fun best kc =>
      match findSubFrom text (openTagC kc.1) pos with
      | none => best
      | some q =>
        match best with
        | none => some (q, kc.1, kc.2)
        | some b => if q < b.1 then some (q, kc.1, kc.2) else best)
    none

/-- The child-result bookkeeping of `_recurse` (parser2.py lines 201–206):
append to the list when the node is a list and the child had content,
else assign into the dict only when the child value is truthy. -/
def stepAssign (isList : Bool) (isContent : Bool) (childName : String)
    (entry : Value) (ad : VDict) (al : List Value) : VDict × List Value :=
  if isList && isContent then (ad, al ++ [entry])
  else if entry.truthy then (dinsert ad childName entry, al)
  else (ad, al)

/-- The initial `attribute_dict` (parser2.py lines 164–165): a list node
starts with its own name bound to `[]`. -/
def initAD (td : TD) : VDict :=
  if isListTD td then [(tdNameD td, Value.vl [])] else []

/-- The closing-tag case of `_recurse` (parser2.py lines 208–221): the
node is complete at the closing match starting at `cs`.  For a primitive,
the raw text runs from just after the last occurrence of the node's own
opening tag before `pos` (Python `rfind(tag, 0, pos)`, `-1` when absent)
up to `cs`; line 220 also stores it in `attribute_dict`, with no
observable effect since only the content is returned. -/
def closedCase (td : TD) (text : List Char) (nm : String) (pos : Nat)
    (ad : VDict) (al : List Value) (cs : Nat) : Except PErr (Value × Nat × Bool) :=
  let ce := cs + (closeTagC nm).length
  if isListTD td then .ok (.vl al, ce, true)
  else if isModelTD td then .ok (.vd ad, ce, true)
  else
    let tag := openTagC nm
    let start :=
      match rfindSub text tag pos with
      | some i => i + tag.length
      | none => tag.length - 1
    .ok (.vs ((text.take cs).drop start), ce, true)

/-- The truncation case of `_recurse` (parser2.py lines 176–190): neither
an opening candidate nor the node's closing tag occurs at or after the
cursor.  The non-empty-list branch subscripts the candidate map with the
LIST's own name (line 180) — a `KeyError` whenever the item tag differs
from the list field's name — and would apply `_fill_with_empty` to the
last accumulated item (`.keys()` on a non-dict raises `AttributeError`;
list items are models, so that sub-case is unreachable).  A primitive
takes everything after the last occurrence of its own opening tag in the
whole buffer (`rfind(tag, 0, len)`). -/
def truncatedCase (ffuel : Nat) (td : TD) (text : List Char) (nm : String)
    (cands : List (String × TD)) (ad : VDict) (al : List Value) :
    Except PErr (Value × Nat × Bool) :=
  if isListTD td then
    match al with
    | [] => .ok (.vl [], text.length, false)
    | _ =>
      match dlookup cands nm with
      | none => .error (.keyErr nm)
      | some itemTd =>
        match al.getLast? with
        | some (.vd d) =>
          match fillWithEmpty ffuel d itemTd with
          | .error e => .error e
          | .ok w =>
            .ok (.vl (al.dropLast ++ [.vd w]), text.length, false)
        | _ => .error .attrErr
  else if isModelTD td then
    match fillWithEmpty ffuel ad td with
    | .error e => .error e
    | .ok w => .ok (.vd w, text.length, false)
  else
    let tag := openTagC nm
    let start :=
      match rfindSub text tag text.length with
      | some i => i + tag.length
      | none => tag.length - 1
    .ok (.vs (text.drop start), text.length, true)

/-- Embeds the body of `_recurse` (parser2.py lines 156–230).  The
arguments `cands`, `ad`, `al`, `hcc` carry the loop state
(`possible_next_opening_tags`, `attribute_dict`, `attribute_list`,
`has_child_content`); the `while` loop and the recursive calls both run
through this one function, consuming one unit of fuel per call.  An
unnamed (union) node entering the loop raises `KeyError "name"` at the
closing-tag f-string (line 173).  In the child case the descriptor `c`
carried by `bestOpen` is the binding of `opening_match.group(1)` in the
candidate map (keys are unique, so the two coincide).  The recursion fuel
is spent one unit per call; `ffuel` is the separate fuel handed to
`_fill_with_empty`, constant throughout. -/
def recurseAux :
    Nat → Nat → List Char → TD → List (String × TD) → Nat → VDict →
      List Value → Bool → Except PErr (Value × Nat × Bool)
  | _, 0, _, _, _, _, _, _, _ => .error .fuelOut
  | ffuel, f + 1, text, td, cands, pos, ad, al, hcc =>
    if pos < text.length then
      let opening := bestOpen text pos cands
      match tdName? td with
      | none => .error (.keyErr "name")
      | some nm =>
        let closing := findSubFrom text (closeTagC nm) pos
        match opening, closing with
        | some (q, k, c), cl =>
          if cl.isNone || q < cl.getD 0 then
            -- lines 191–207: an opening tag comes first; recurse on the child
            let openEnd := q + (openTagC k).length
            match recurseAux ffuel f text c (possibleOpeningTags c [tdNameD c])
                openEnd (initAD c) [] false with
            | .error e => .error e
            | .ok (entry, newPos, isContent) =>
              let st := stepAssign (isListTD td) isContent (tdNameD c) entry ad al
              recurseAux ffuel f text td cands newPos st.1 st.2 (hcc || isContent)
          else closedCase td text nm pos ad al (cl.getD 0)
        | none, some cs => closedCase td text nm pos ad al cs
        | none, none => truncatedCase ffuel td text nm cands ad al
    else
      -- lines 223–230: the loop ran past the end of the buffer
      if isListTD td then .ok (.vl al, text.length, hcc)
      else if isModelTD td then
        match fillWithEmpty ffuel ad td with
        | .error e => .error e
        | .ok w => .ok (.vd w, text.length, hcc)
      else .ok (defaultForPrim td, text.length, false)

/-- Embeds a call `_recurse(xml_content, open_arg, pos)` (parser2.py line
156–158): the candidate map is computed once with the node's own name
excluded (`set([open_arg.get("name", "")])`), and the loop state starts
empty. -/
def recurse (ffuel fuel : Nat) (text : List Char) (td : TD) (pos : Nat) :
    Except PErr (Value × Nat × Bool) :=
  recurseAux ffuel fuel text td (possibleOpeningTags td [tdNameD td]) pos
    (initAD td) [] false

/-! ## Model construction (`model(**parsed_dict)`)

`parse_xml` ends with `return model(**parsed_dict)` (parser2.py line 259):
pydantic validates the keyword dict against the model.  This is modelled
minimally: extra keys are ignored, every declared field is required (the
models under test declare no defaults), a missing field raises
`validationErr`, strings coerce to numeric/boolean kinds by literal
parsing, nested dicts validate recursively against nested models, and a
union accepts the first branch that validates. -/

/-- Digit run to a natural number. -/
def digitsToNat (cs : List Char) : Nat :=
  cs.foldl (fun acc c => acc * 10 + (c.toNat - 48)) 0

/-- Parse a decimal natural: nonempty and all digits. -/
def parseNatC (cs : List Char) : Option Nat :=
  if !cs.isEmpty && cs.all Char.isDigit then some (digitsToNat cs) else none

/-- Parse a decimal integer with an optional leading minus sign. -/
def parseIntC : List Char → Option Int
  | '-' :: rest => (parseNatC rest).map (fun n => -(n : Int))
  | cs => (parseNatC cs).map Int.ofNat

/-- A decimal float literal: optional minus, digits, optional dot-digits. -/
def isFloatLitC (cs : List Char) : Bool :=
  let body := match cs with
    | '-' :: rest => rest
    | _ => cs
  match body.splitOn '.' with
  | [whole] => !whole.isEmpty && whole.all Char.isDigit
  | [whole, frac] =>
    !whole.isEmpty && whole.all Char.isDigit &&
      (!frac.isEmpty && frac.all Char.isDigit)
  | _ => false

/-- Pydantic validation of one value against one annotation (the recursive
worker of `model(**parsed_dict)`). -/
def coerceVal : Nat → Ann → Value → Except PErr Value
  | 0, _, _ => .error .fuelOut
  | _ + 1, .aprim .ps, .vs s => .ok (.vs s)
  | _ + 1, .aprim .ps, _ => .error .validationErr
  | _ + 1, .aprim .pi, .vi n => .ok (.vi n)
  | _ + 1, .aprim .pi, .vs s =>
    match parseIntC s with
    | some n => .ok (.vi n)
    | none => .error .validationErr
  | _ + 1, .aprim .pi, .vb b => .ok (.vi (if b then 1 else 0))
  | _ + 1, .aprim .pi, .vfzero => .ok (.vi 0)
  | _ + 1, .aprim .pi, _ => .error .validationErr
  | _ + 1, .aprim .pf, .vfzero => .ok .vfzero
  | _ + 1, .aprim .pf, .vi n => .ok (.vi n)
  | _ + 1, .aprim .pf, .vs s =>
    if isFloatLitC s then .ok (.vs s) else .error .validationErr
  | _ + 1, .aprim .pf, _ => .error .validationErr
  | _ + 1, .aprim .pb, .vb b => .ok (.vb b)
  | _ + 1, .aprim .pb, .vs s =>
    if s = "true".data || s = "True".data || s = "1".data then .ok (.vb true)
    else if s = "false".data || s = "False".data || s = "0".data then
      .ok (.vb false)
    else .error .validationErr
  | _ + 1, .aprim .pb, _ => .error .validationErr
  | _ + 1, .anone, .vnone => .ok .vnone
  | _ + 1, .anone, _ => .error .validationErr
  | f + 1, .alist a, .vl items => (mapExcept (coerceVal f a) items).map .vl
  | _ + 1, .alist _, _ => .error .validationErr
  | f + 1, .aunion as, v =>
    match (as.toList.map (fun a => (coerceVal f a v).toOption)).findSome? id with
    | some w => .ok w
    | none => .error .validationErr
  | f + 1, .amodel _ fs, .vd d =>
    (mapExcept (fun (p : String × Ann) =>
      match dlookup d p.1 with
      | none => Except.error PErr.validationErr
      | some w => (coerceVal f p.2 w).map (fun w2 => (p.1, w2))) fs.toList).map .vd
  | _ + 1, .amodel _ _, _ => .error .validationErr

/-! ## `parse_xml` -/

/-- Embeds `parse_xml` (parser2.py lines 248–259): normalize the buffer,
reflect the model, run `_recurse` from position 0, replace a falsy result
with `{}` (for a dict result this is the identity: a falsy dict is the
empty dict; a truthy non-dict result would make `_fill_with_empty` call
`.keys()` on a non-dict and raise `AttributeError` — unreachable, since
the root descriptor is always a model and `_recurse` on a model returns a
dict), run `_fill_with_empty` once at the root (its exceptions
propagate), and construct the model instance.  The fuel amounts are
ample: one unit is spent per loop iteration or recursive call, iterations
advance the cursor by at least one, and `sizeOf` strictly dominates the
depth of any descriptor or annotation. -/
def parse_xml (ann : Ann) (xml : List Char) : Except PErr Value :=
  let text := cleanXml xml
  match inspectTD (szA ann + 1) ann "" with
  | .error e => .error e
  | .ok td =>
    match recurse (szTD td + 1) (text.length + 2) text td 0 with
    | .error e => .error e
    | .ok (v, _, _) =>
      match v with
      | .vd l =>
        match fillWithEmpty (szTD td + 1) l td with
        | .error e => .error e
        | .ok w => coerceVal (szA ann + 1) ann (.vd w)
      | w =>
        if w.truthy then .error .attrErr
        else
          match fillWithEmpty (szTD td + 1) [] td with
          | .error e => .error e
          | .ok w2 => coerceVal (szA ann + 1) ann (.vd w2)

/-- Projection used to state field-level facts about a parse result. -/
def getField (r : Except PErr Value) (k : String) : Option Value :=
  match r with
  | .ok (.vd d) => dlookup d k
  | _ => none

/-! ## Scalar coercion for enumerations -/

/-- Modelled from the spec: no enumeration handling exists under `src/`
(`parser2.py` returns raw tag text unchanged and `_get_default_for_primitive`
has no enum branch); §4.5 of the specification describes the missing
coercion, reproduced here verbatim — strip the raw text; if it consists
entirely of decimal digits, read it as a 1-based index into the declared
variant order, falling back to the declared default (the first variant) on
out-of-range or non-positive values; otherwise keep the text as a direct
variant name/value match, left to the caller's value type to validate. -/
def coerceEnumeration (variants : List (List Char)) (raw : List Char) :
    List Char :=
  let t := (((raw.dropWhile (fun c => c.isWhitespace)).reverse.dropWhile
    (fun c => c.isWhitespace)).reverse)
  if !t.isEmpty && t.all Char.isDigit then
    let n := digitsToNat t
    if 1 ≤ n && n ≤ variants.length then
      variants.getD (n - 1) []
    else
      variants.getD 0 []
  else t

/-! ## Specification-level notions used to state the claims -/

/-- The start of the in-progress raw value captured by the truncation case
for a primitive: just after the last occurrence of the node's own opening
tag in the whole buffer (`rfind` over `[0, len)`, slice index `-1 + len(tag)`
when absent). -/
def inProgressStart (text : List Char) (nm : String) : Nat :=
  match rfindSub text (openTagC nm) text.length with
  | some i => i + (openTagC nm).length
  | none => (openTagC nm).length - 1

/-- The named, non-`NoneType` entries of an argument list, in order, with
their tag names — the raw material of the candidate map before
deduplication. -/
def namedEntries (args : List TD) : List (String × TD) :=
  args.filterMap (fun a =>
    match tdName? a with
    | some n => if isNoneTD a then none else some (n, a)
    | none => none)

/-- All tag/descriptor pairs a node can offer as candidates: its direct
named non-`NoneType` arguments followed by ONE level of flattening of its
unnamed (union) arguments.  Deeper unions are not flattened. -/
def sources (td : TD) : List (String × TD) :=
  namedEntries (tdArgs td) ++
    (tdArgs td).flatMap (fun a =>
      match tdName? a with
      | some _ => []
      | none => namedEntries (tdArgs a))

/-- The value `_fill_with_empty` binds to an unseen candidate tag, given
the nested-model completion `fill`: recurse with an empty map for a nested
model (whose probe may raise, propagated), the empty list for a list, the
kind's zero value for a primitive.  (A union is never a candidate — it has
no name — and would be skipped by the `isinstance` chain.) -/
def stepFillValue (fill : TD → Except PErr VDict) (c : TD) :
    Except PErr Value :=
  match c with
  | .tmodel _ _ => (fill c).map .vd
  | .tlist _ _ => .ok (.vl [])
  | .tunion _ => .ok .vnone
  | _ => .ok (defaultForPrim c)

/-- No tag anywhere in the descriptor's candidate closure is literally
`"args"`.  Filling a field named `args` hands its value to the optionality
probe of the NEXT candidate at the same level, whose loop over that value
raises; this predicate rules the situation out. -/
inductive NoArgs : TD → Prop where
  | mk : ∀ td, (∀ p, p ∈ sources td → p.1 ≠ "args") →
      (∀ p, p ∈ sources td → NoArgs p.2) → NoArgs td

/-- The length of the list parsed for field `k`, used to state list-count
facts about a parse result decidably. -/
def listLen (r : Except PErr Value) (k : String) : Option Nat :=
  match r with
  | .ok (.vd d) =>
    match dlookup d k with
    | some (.vl l) => some l.length
    | _ => none
  | _ => none

/-- The model definition contains a list whose item type is a bare
primitive (or `NoneType`) — the situation the assertion of
`inspect_type_annotation` line 34 rejects. -/
inductive HasBare : Ann → Prop where
  | bare : ∀ a, isBarePrimAnn a = true → HasBare (.alist a)
  | inList : ∀ a, HasBare a → HasBare (.alist a)
  | inUnion : ∀ as a, a ∈ AnnL.toList as → HasBare a → HasBare (.aunion as)
  | inModel : ∀ cname fs p, p ∈ FieldL.toList fs → HasBare p.2 →
      HasBare (.amodel cname fs)

mutual
/-- The value contains, recursively, every required field of the
descriptor's closure (spec §8, "Total default coverage"): a model value is
a dict giving every field; a list value covers the item descriptor in each
element; primitives and `NoneType` carry no fields. -/
inductive Covers : TD → Value → Prop where
  | prim : ∀ k n v, Covers (.prim k n) v
  | none1 : ∀ n v, Covers (.tnone n) v
  | list1 : ∀ n as items,
      (∀ it, it ∈ items → ∀ a, a ∈ TDL.toList as → Covers a it) →
      Covers (.tlist n as) (.vl items)
  | model1 : ∀ n as d, (∀ a, a ∈ TDL.toList as → CoversField d a) →
      Covers (.tmodel n as) (.vd d)
/-- One field slot of a model is accounted for in the dict `d`: a
`NoneType` slot and an optional slot (a union with a `NoneType` branch)
are not required; any other slot must be present under its tag name with a
covered value; a required union slot must have some branch present. -/
inductive CoversField : VDict → TD → Prop where
  | nonet : ∀ d n, CoversField d (.tnone n)
  | opt : ∀ d as, (∃ b ∈ TDL.toList as, isNoneTD b = true) →
      CoversField d (.tunion as)
  | req : ∀ d a w, dlookup d (tdNameD a) = some w → Covers a w →
      CoversField d a
  | unionReq : ∀ d as b w, b ∈ TDL.toList as →
      dlookup d (tdNameD b) = some w → Covers b w →
      CoversField d (.tunion as)
end

/-- Well-formedness of a descriptor for the default-coverage theorem: a
model's candidate tag names are pairwise distinct, its candidate children
are themselves well-formed, and each union slot either is optional or has
at least one named non-`NoneType` branch. -/
inductive WFTD : TD → Prop where
  | prim : ∀ k n, WFTD (.prim k n)
  | none1 : ∀ n, WFTD (.tnone n)
  | list1 : ∀ n as, WFTD (.tlist n as)
  | union1 : ∀ as, WFTD (.tunion as)
  | model1 : ∀ n as,
      ((sources (.tmodel n as)).map Prod.fst).Nodup →
      (∀ p, p ∈ sources (.tmodel n as) → WFTD p.2) →
      (∀ u, TD.tunion u ∈ TDL.toList as →
        (∃ b ∈ TDL.toList u, isNoneTD b = true) ∨
        (∃ b ∈ TDL.toList u, (tdName? b).isSome ∧ isNoneTD b = false)) →
      WFTD (.tmodel n as)

/-! ## Concrete model definitions used by the claims

They mirror the test models of the repository:
`Item {label: str}`, `Root {items: list[Item]}`, the specification's §8
scenario model `{name: str, tags: list[Item]}`, `A {x: str, y: str}` with
`Root {a: A}`, `M {name: str, nick: Optional[str]}`, and `R {name: str}`. -/

/-- Pydantic model `Item` with a single `label: str` field. -/
def annItem : Ann := .amodel "Item" (FieldL.ofList [("label", .aprim .ps)])

/-- Pydantic model `Root {items: list[Item]}`. -/
def annRootItems : Ann :=
  .amodel "Root" (FieldL.ofList [("items", .alist annItem)])

/-- The specification's §8 scenario model `{name: str, tags: list[Item]}`. -/
def annNT : Ann :=
  .amodel "Resp" (FieldL.ofList [("name", .aprim .ps), ("tags", .alist annItem)])

/-- Pydantic model `A {x: str, y: str}`. -/
def annA : Ann := .amodel "A" (FieldL.ofList [("x", .aprim .ps), ("y", .aprim .ps)])

/-- Pydantic model `Root {a: A}`. -/
def annRootA : Ann := .amodel "Root" (FieldL.ofList [("a", annA)])

/-- Pydantic model `M {name: str, nick: Optional[str]}`. -/
def annOpt : Ann :=
  .amodel "M" (FieldL.ofList
    [("name", .aprim .ps), ("nick", .aunion (AnnL.ofList [.aprim .ps, .anone]))])

/-- Pydantic model `R {name: str}`. -/
def annR : Ann := .amodel "R" (FieldL.ofList [("name", .aprim .ps)])

/-- Pydantic model `M {args: int, b: str}`: a field literally named `args`
followed by another field, the shape on which the optionality probe of
`_fill_with_empty` iterates parsed content and raises. -/
def annArgsB : Ann :=
  .amodel "M" (FieldL.ofList [("args", .aprim .pi), ("b", .aprim .ps)])

/-- The descriptor `inspect_type_annotation` builds for `annOpt`. -/
def tdOpt : TD := (inspectTD (szA annOpt + 1) annOpt "").toOption.getD (.tnone "")

/-- The enumeration variants `[A, B, C]` of the enumeration index law. -/
def abcVariants : List (List Char) := ["A".data, "B".data, "C".data]

/-- Pydantic model `M {a: str, b: str, c: str}` for the monotonicity
check. -/
def annABC : Ann :=
  .amodel "M" (FieldL.ofList
    [("a", .aprim .ps), ("b", .aprim .ps), ("c", .aprim .ps)])

/-- A fully well-formed document over `annABC` in which every tag occurs
exactly once. -/
def docB : List Char := "<a>hi</a><b>yo</b><c>z</c>".data

/-- The string value of a field of a parse result, used to state
field-level monotonicity decidably. -/
def getStr (r : Except PErr Value) (k : String) : Option (List Char) :=
  match r with
  | .ok (.vd d) =>
    match dlookup d k with
    | some (.vs s) => some s
    | _ => none
  | _ => none

/-! ## Association-list lemmas -/

theorem mem_dinsert {α : Type} {d : List (String × α)} {k : String} {v : α}
    {p : String × α} (h : p ∈ dinsert d k v) : p ∈ d ∨ p = (k, v) := by
  induction d with
  | nil =>
    simp [dinsert] at h
    exact Or.inr h
  | cons hd t ih =>
    obtain ⟨k1, v1⟩ := hd
    by_cases hk : k1 = k
    · subst hk
      simp [dinsert] at h
      rcases h with h | h
      · exact Or.inr (by simp [h])
      · exact Or.inl (List.mem_cons_of_mem _ h)
    · simp [dinsert, hk] at h
      rcases h with h | h
      · exact Or.inl (by simp [h])
      · rcases ih h with h2 | h2
        · exact Or.inl (List.mem_cons_of_mem _ h2)
        · exact Or.inr h2

theorem mem_dmerge {α : Type} {d1 d2 : List (String × α)} {p : String × α}
    (h : p ∈ dmerge d1 d2) : p ∈ d1 ∨ p ∈ d2 := by
  induction d2 generalizing d1 with
  | nil => exact Or.inl h
  | cons hd t ih =>
    simp only [dmerge, List.foldl_cons] at h
    rcases ih h with h2 | h2
    · rcases mem_dinsert h2 with h3 | h3
      · exact Or.inl h3
      · exact Or.inr (by simp [h3])
    · exact Or.inr (List.mem_cons_of_mem _ h2)

theorem dlookup_mem {α : Type} {d : List (String × α)} {k : String} {v : α}
    (h : dlookup d k = some v) : (k, v) ∈ d := by
  induction d with
  | nil => simp [dlookup] at h
  | cons hd t ih =>
    obtain ⟨k1, v1⟩ := hd
    by_cases hk : k1 = k
    · subst hk
      simp [dlookup] at h
      simp [h]
    · simp [dlookup, hk] at h
      exact List.mem_cons_of_mem _ (ih h)

/-! ## Claim C1 — `parse` never raises

The code does raise.  On the specification's own §8 scenario buffer
(`...<tags>` closes nothing), the truncation case of `_recurse` for a
non-empty list subscripts the candidate map with the LIST's own name
(`possible_next_opening_tags[open_arg["name"]]`, parser2.py line 180),
whose keys are the ITEM tags — a `KeyError`.  The same happens on any
truncated list followed by text that survives normalization. -/

/-- Claim C1: `parse` raises `KeyError` on the specification's §8 scenario
buffer and on a truncated-list buffer with a trailing `>`-bearing tail —
refuting "never raises an exception to the caller". -/
theorem C1_parse_raises_keyerror :
    parse_xml annNT
      "<name>A</name><tags><item><label>x</label></item><tags>".data =
      .error (.keyErr "tags") ∧
    parse_xml annRootItems "<items><item><label>x</label></item>a>".data =
      .error (.keyErr "items") := ⟨rfl, rfl⟩

/-! ## Claim C3 — enumeration index law (spec-modelled) -/

/-- Claim C3: for variants `[A, B, C]`, raw `"2"` coerces to `B` (1-based
index), raw `"B"` coerces to `B` (direct variant match), and the
out-of-range `"99"` and non-positive `"0"` coerce to the default first
variant `A`. -/
theorem C3_enumeration_index_law :
    coerceEnumeration abcVariants "2".data = "B".data ∧
    coerceEnumeration abcVariants "B".data = "B".data ∧
    coerceEnumeration abcVariants "99".data = "A".data ∧
    coerceEnumeration abcVariants "0".data = "A".data :=
  ⟨rfl, rfl, rfl, rfl⟩

/-! ## Claim C5 — list accumulation boundary

The claim as frozen is false: it asserts that for EVERY buffer
`<items><item>X</item><item>Y` with the second item unterminated, the
in-progress second item is dropped.  The list branch of `_recurse`
(parser2.py line 201) appends the child exactly when `is_content` is true,
and `is_content` is true as soon as any field CLOSED inside the item —
the loop-exhaustion return hands back `has_child_content` (line 229) —
even though the item's own `</item>` never arrived.  So the second item is
dropped only when nothing closed inside it. -/

/-- Claim C5 counterexample: the buffer
`<items><item><label>x</label></item><item><label>y</label>` is of the
claim's form — `</item>` occurs exactly once (at position 29), so the
second item is unterminated — yet parse returns a TWO-element list: the
label that closed inside the in-progress second item makes its recursion
report content, and the list branch appends it.  This refutes "the
returned list contains exactly one completed item; the in-progress second
item is dropped". -/
theorem C5_counterexample :
    findSubFrom
      "<items><item><label>x</label></item><item><label>y</label>".data
      (closeTagC "item") 0 = some 29 ∧
    findSubFrom
      "<items><item><label>x</label></item><item><label>y</label>".data
      (closeTagC "item") 30 = none ∧
    parse_xml annRootItems
      "<items><item><label>x</label></item><item><label>y</label>".data =
      .ok (.vd [("items", .vl
        [.vd [("label", .vs "x".data)], .vd [("label", .vs "y".data)]])]) ∧
    listLen (parse_xml annRootItems
      "<items><item><label>x</label></item><item><label>y</label>".data)
      "items" = some 2 :=
  ⟨rfl, rfl, rfl, rfl⟩

/-- Claim C5 (amended): the boundary rule is governed by `is_content`, not
by the item's closing tag.  First two conjuncts, general over all matcher
states: the list branch appends the recursively parsed child exactly when
the child reported content (`is_content` true appends it, `is_content`
false leaves the accumulated list unchanged).  Then the concrete boundary
on `<items><item><label>x</label></item><item>Y`: with `Y = <label>y` (the
cut leaves nothing closed inside the second item) the list holds only the
first item; with `Y = <label>y</label>` (a field closed inside the still
unterminated item) the partial second item is already present; with the
item fully closed it appears likewise; and appending only the literal
`</item>` also yields a second element, whose in-progress label swallows
the unclosed tail. -/
theorem C5_list_accumulation_boundary :
    (∀ (childName : String) (entry : Value) (ad : VDict) (al : List Value),
        stepAssign true true childName entry ad al = (ad, al ++ [entry])) ∧
    (∀ (childName : String) (entry : Value) (ad : VDict) (al : List Value),
        (stepAssign true false childName entry ad al).2 = al) ∧
    parse_xml annRootItems
      "<items><item><label>x</label></item><item><label>y".data =
      .ok (.vd [("items", .vl [.vd [("label", .vs "x".data)]])]) ∧
    parse_xml annRootItems
      "<items><item><label>x</label></item><item><label>y</label>".data =
      .ok (.vd [("items", .vl
        [.vd [("label", .vs "x".data)], .vd [("label", .vs "y".data)]])]) ∧
    parse_xml annRootItems
      "<items><item><label>x</label></item><item><label>y</label></item>".data =
      .ok (.vd [("items", .vl
        [.vd [("label", .vs "x".data)], .vd [("label", .vs "y".data)]])]) ∧
    parse_xml annRootItems
      "<items><item><label>x</label></item><item><label>y</item>".data =
      .ok (.vd [("items", .vl
        [.vd [("label", .vs "x".data)],
          .vd [("label", .vs "y</item>".data)]])]) := by
  refine ⟨?_, ?_, rfl, rfl, rfl, rfl⟩
  · intro childName entry ad al
    rfl
  · intro childName entry ad al
    by_cases h : entry.truthy = true <;> simp [stepAssign, h]

/-! ## Claim C6 — monotonicity under well-formed truncation -/

/-- Claim C6 counterexample: in the well-formed document
`<name>A</name><name>B</name>`, the field `name`'s closing tag is already
observed in the 14-character prefix (at position 7), where the field
parses to `"A"`; in the full document it parses to `"B"`.  The later
non-empty closing overwrites the earlier value (parser2.py line 205),
refuting the claim as stated. -/
theorem C6_counterexample :
    findSubFrom (("<name>A</name><name>B</name>".data).take 14)
      (closeTagC "name") 0 = some 7 ∧
    getField (parse_xml annR (("<name>A</name><name>B</name>".data).take 14))
      "name" = some (.vs "A".data) ∧
    getField (parse_xml annR ("<name>A</name><name>B</name>".data)) "name" =
      some (.vs "B".data) ∧
    (Value.vs "A".data) ≠ (Value.vs "B".data) := by
  refine ⟨rfl, rfl, rfl, ?_⟩
  intro h
  injection h with h2
  simp at h2

/-! ## Claim C10 — no overwrite with empty -/

/-- Claim C10: when a recursively parsed child value is falsy, the field
is not assigned (`elif dict_entry:` — parser2.py line 204), so a field
that closed first with non-empty content keeps it when a later closing
carries empty content (second conjunct: `<name>A</name><name></name>`
parses with `name = "A"`). -/
theorem C10_no_overwrite_with_empty :
    (∀ (isContent : Bool) (childName : String) (entry : Value) (ad : VDict)
        (al : List Value),
        entry.truthy = false →
        stepAssign false isContent childName entry ad al = (ad, al)) ∧
    (∀ (isContent : Bool) (k : String) (v entry : Value) (ad : VDict)
        (al : List Value),
        dlookup ad k = some v → entry.truthy = false →
        dlookup (stepAssign false isContent k entry ad al).1 k = some v) ∧
    parse_xml annR "<name>A</name><name></name>".data =
      .ok (.vd [("name", .vs "A".data)]) := by
  refine ⟨?_, ?_, rfl⟩
  · intro isContent childName entry ad al h
    simp [stepAssign, h]
  · intro isContent k v entry ad al hv h
    simp [stepAssign, h, hv]

/-- Witness for C10: the general conjunct applied to the concrete falsy
entry `""` with a non-trivial dict state. -/
theorem C10_witness :
    (Value.vs []).truthy = false ∧
    stepAssign false true "x" (.vs []) [("a", .vs "b".data)] [] =
      ([("a", .vs "b".data)], []) :=
  ⟨rfl, C10_no_overwrite_with_empty.1 true "x" (.vs []) [("a", .vs "b".data)] [] rfl⟩

/-! ## Claim C7 — in-progress primitive capture

The matcher-level rule holds exactly as claimed.  The claim's
"in particular" example does not: `_clean_xml` strips the suffix after the
last `>` before the matcher runs, so `"<name>A</nam"` is normalized to
`"<name>"` and the primitive never sees the text `A`. -/

/-- Claim C7 counterexample: `parse` of `"<name>A</nam"` yields
`name = ""`, not the claimed `name = "A"` (normalization removes `A</nam`). -/
theorem C7_counterexample :
    getField (parse_xml annNT "<name>A</nam".data) "name" = some (.vs []) ∧
    getField (parse_xml annNT "<name>A</nam".data) "name" ≠
      some (.vs "A".data) := by
  refine ⟨rfl, ?_⟩
  intro h
  rw [show getField (parse_xml annNT "<name>A</nam".data) "name" =
    some (.vs []) from rfl] at h
  injection h with h2
  injection h2 with h3
  simp at h3

/-- Claim C7 (amended): a primitive (or enumeration) node offers no
candidate opening tags, and whenever its closing tag does not occur at or
after the cursor (with buffer remaining), the matcher returns everything
after the last occurrence of the node's own opening tag through
end-of-buffer with `hasContent = true`; the example buffer
`"<name>A</nam"`, however, normalizes to `"<name>"` and parses to
`{name: "", tags: []}`. -/
theorem C7_in_progress_primitive_capture :
    (∀ (k : PKind) (nm : String) (excl : List String),
        possibleOpeningTags (.prim k nm) excl = []) ∧
    (∀ (ffl f : Nat) (text : List Char) (k : PKind) (nm : String) (pos : Nat),
        pos < text.length →
        findSubFrom text (closeTagC nm) pos = none →
        recurse ffl (f + 1) text (.prim k nm) pos =
          .ok (.vs (text.drop (inProgressStart text nm)), text.length, true)) ∧
    parse_xml annNT "<name>A</nam".data =
      .ok (.vd [("name", .vs []), ("tags", .vl [])]) := by
  refine ⟨fun k nm excl => rfl, ?_, rfl⟩
  intro ffl f text k nm pos hpos hclose
  simp only [recurse, recurseAux, possibleOpeningTags, tdArgs,
    fieldNamesAtLevel, List.foldl_nil, dmerge, List.filter_nil, bestOpen,
    tdName?, initAD, isListTD, isModelTD, hpos, if_pos, hclose]
  simp [truncatedCase, isListTD, isModelTD, inProgressStart]

/-- Witness for C7: the hypotheses of the matcher-level rule discharged on
the concrete buffer `"<name>A"` at cursor 6, capturing the in-progress
value `"A"`. -/
theorem C7_witness :
    (6 : Nat) < ("<name>A".data).length ∧
    findSubFrom "<name>A".data (closeTagC "name") 6 = none ∧
    recurse 3 9 "<name>A".data (.prim .ps "name") 6 =
      .ok (.vs "A".data, 7, true) := by
  refine ⟨by decide, by decide, ?_⟩
  have h := C7_in_progress_primitive_capture.2.1 3 8 "<name>A".data .ps "name" 6
    (by decide) (by decide)
  exact h.trans rfl

/-! ## Claim C4 — default completion skips optional fields

The schema does mark `nick` optional (`isFieldOptionalTD tdOpt "nick"`),
but `_fill_with_empty` passes the parsed VALUE dict — not the type dict —
to `_is_field_optional` (parser2.py line 235), so the check always comes
back false and the optional field is filled with its zero value instead of
being left absent. -/

/-- Claim C4: `_is_field_optional` on the TYPE dict marks `nick` optional,
the check `_fill_with_empty` actually runs returns false on any parsed
dict without an `"args"` field, and `parse` of the empty buffer fills the
optional `nick` with `""` instead of leaving it absent. -/
theorem C4_optional_field_filled :
    isFieldOptionalTD tdOpt "nick" = true ∧
    (∀ (parsed : VDict) (field : String), dlookup parsed "args" = none →
        isFieldOptionalAsCalled parsed field = .ok false) ∧
    parse_xml annOpt "".data =
      .ok (.vd [("name", .vs []), ("nick", .vs [])]) := by
  refine ⟨rfl, ?_, rfl⟩
  intro parsed field h
  simp [isFieldOptionalAsCalled, h]

/-- Witness for C4: the as-called optionality check evaluated at the
concrete parsed dict `{name: "A"}`. -/
theorem C4_witness :
    dlookup [("name", Value.vs "A".data)] "args" = none ∧
    isFieldOptionalAsCalled [("name", Value.vs "A".data)] "nick" = .ok false := by
  refine ⟨rfl, ?_⟩
  exact C4_optional_field_filled.2.1 [("name", Value.vs "A".data)] "nick" rfl

/-! ## Claim C9 — descriptor construction fails exactly on bare-primitive
list items -/

theorem szAL_mem : ∀ {a : Ann} {as : AnnL}, a ∈ AnnL.toList as →
    szA a ≤ szAL as
  | a, .nil, h => by simp [AnnL.toList] at h
  | a, .cons b t, h => by
    simp [AnnL.toList] at h
    rcases h with h | h
    · subst h
      simp only [szAL]
      omega
    · have := szAL_mem h
      simp only [szAL]
      omega

theorem szFL_mem : ∀ {p : String × Ann} {fs : FieldL}, p ∈ FieldL.toList fs →
    szA p.2 ≤ szFL fs
  | p, .nil, h => by simp [FieldL.toList] at h
  | p, .cons n a t, h => by
    simp [FieldL.toList] at h
    rcases h with h | h
    · subst h
      simp only [szFL]
      omega
    · have := szFL_mem h
      simp only [szFL]
      omega

theorem mapExcept_ok_of {α β : Type} {g : α → Except PErr β} {l : List α}
    (h : ∀ a ∈ l, ∃ b, g a = .ok b) : ∃ bs, mapExcept g l = .ok bs := by
  induction l with
  | nil => exact ⟨[], rfl⟩
  | cons a t ih =>
    obtain ⟨b, hb⟩ := h a (by simp)
    obtain ⟨bs, hbs⟩ := ih (fun x hx => h x (by simp [hx]))
    exact ⟨b :: bs, by simp [mapExcept, hb, hbs, Except.map]⟩

theorem mapExcept_error_of {α β : Type} {g : α → Except PErr β} {l : List α}
    {x : α} {e : PErr} (hx : x ∈ l) (hgx : g x = .error e)
    (hall : ∀ y ∈ l, g y = .error e ∨ ∃ b, g y = .ok b) :
    mapExcept g l = .error e := by
  induction l with
  | nil => simp at hx
  | cons a t ih =>
    rcases hall a (by simp) with ha | ⟨b, hb⟩
    · simp [mapExcept, ha]
    · have hxt : x ∈ t := by
        rcases List.mem_cons.mp hx with h | h
        · subst h
          rw [hgx] at hb
          exact absurd hb (by simp)
        · exact h
      have := ih hxt (fun y hy => hall y (by simp [hy]))
      simp [mapExcept, hb, this, Except.map]

/-- Both halves of the descriptor-construction dichotomy, by strong
induction on the annotation's size: a bare-primitive list item somewhere
makes `inspect_type_annotation` fail with the schema assertion, and its
absence makes it succeed. -/
theorem inspect_dichotomy :
    ∀ n : Nat, ∀ (ann : Ann) (nm : String) (f : Nat), szA ann ≤ n →
      szA ann < f →
      (HasBare ann → inspectTD f ann nm = .error .schemaAssert) ∧
      (¬ HasBare ann → ∃ td, inspectTD f ann nm = .ok td) := by
  intro n
  induction n using Nat.strong_induction_on with
  | _ n sih =>
    intro ann nm f hn hf
    match ann with
    | .aprim k =>
      constructor
      · intro h
        cases h
      · intro _
        obtain ⟨f2, rfl⟩ : ∃ f2, f = f2 + 1 :=
          ⟨f - 1, by simp [szA] at hf; omega⟩
        exact ⟨_, rfl⟩
    | .anone =>
      constructor
      · intro h
        cases h
      · intro _
        obtain ⟨f2, rfl⟩ : ∃ f2, f = f2 + 1 :=
          ⟨f - 1, by simp [szA] at hf; omega⟩
        exact ⟨_, rfl⟩
    | .alist a =>
      obtain ⟨f2, rfl⟩ : ∃ f2, f = f2 + 1 :=
        ⟨f - 1, by simp [szA] at hf; omega⟩
      have hsz : szA (.alist a) = 1 + szA a := rfl
      by_cases hbare : isBarePrimAnn a = true
      · refine ⟨fun _ => by simp [inspectTD, hbare], fun h => ?_⟩
        exact absurd (HasBare.bare a hbare) h
      · have ih := sih (szA a) (by omega) a "" f2 le_rfl (by omega)
        by_cases hb : HasBare a
        · refine ⟨fun _ => ?_, fun h => absurd (HasBare.inList a hb) h⟩
          simp [inspectTD, hbare, ih.1 hb, Except.map]
        · refine ⟨fun h => ?_, fun _ => ?_⟩
          · cases h with
            | bare _ h2 => exact absurd h2 hbare
            | inList _ h2 => exact absurd h2 hb
          · obtain ⟨td, htd⟩ := ih.2 hb
            exact ⟨.tlist nm (.cons td .nil),
              by simp [inspectTD, hbare, htd, Except.map]⟩
    | .aunion as =>
      obtain ⟨f2, rfl⟩ : ∃ f2, f = f2 + 1 :=
        ⟨f - 1, by simp [szA] at hf; omega⟩
      have hsz : szA (.aunion as) = 1 + szAL as := rfl
      have hmem : ∀ x ∈ AnnL.toList as,
          (HasBare x → inspectTD f2 x (camelToSnake nm) = .error .schemaAssert) ∧
          (¬ HasBare x →
            ∃ td, inspectTD f2 x (camelToSnake nm) = .ok td) := by
        intro x hx
        have h1 : szA x ≤ szAL as := szAL_mem hx
        exact sih (szA x) (by omega) x (camelToSnake nm) f2 le_rfl (by omega)
      constructor
      · intro h
        cases h with
        | inUnion _ x hx hbx =>
          have herr :
              mapExcept (fun a => inspectTD f2 a (camelToSnake nm))
                (AnnL.toList as) = .error .schemaAssert := by
            refine mapExcept_error_of hx ((hmem x hx).1 hbx) ?_
            intro y hy
            by_cases hby : HasBare y
            · exact Or.inl ((hmem y hy).1 hby)
            · exact Or.inr ((hmem y hy).2 hby)
          simp [inspectTD, herr, Except.map]
      · intro h
        have hok : ∀ x ∈ AnnL.toList as,
            ∃ b, inspectTD f2 x (camelToSnake nm) = .ok b := by
          intro x hx
          refine (hmem x hx).2 (fun hbx => h (HasBare.inUnion as x hx hbx))
        obtain ⟨bs, hbs⟩ := mapExcept_ok_of hok
        exact ⟨.tunion (TDL.ofList bs),
          by simp [inspectTD, hbs, Except.map]⟩
    | .amodel cname fs =>
      obtain ⟨f2, rfl⟩ : ∃ f2, f = f2 + 1 :=
        ⟨f - 1, by simp [szA] at hf; omega⟩
      have hsz : szA (.amodel cname fs) = 1 + szFL fs := rfl
      have hmem : ∀ p ∈ FieldL.toList fs,
          (HasBare p.2 → inspectTD f2 p.2 p.1 = .error .schemaAssert) ∧
          (¬ HasBare p.2 → ∃ td, inspectTD f2 p.2 p.1 = .ok td) := by
        intro p hp
        have h1 : szA p.2 ≤ szFL fs := szFL_mem hp
        exact sih (szA p.2) (by omega) p.2 p.1 f2 le_rfl (by omega)
      constructor
      · intro h
        cases h with
        | inModel _ _ p hp hbp =>
          have herr :
              mapExcept (fun (p : String × Ann) => inspectTD f2 p.2 p.1)
                (FieldL.toList fs) = .error .schemaAssert := by
            refine mapExcept_error_of hp ((hmem p hp).1 hbp) ?_
            intro y hy
            by_cases hby : HasBare y.2
            · exact Or.inl ((hmem y hy).1 hby)
            · exact Or.inr ((hmem y hy).2 hby)
          simp [inspectTD, herr, Except.map]
      · intro h
        have hok : ∀ p ∈ FieldL.toList fs,
            ∃ b, inspectTD f2 p.2 p.1 = .ok b := by
          intro p hp
          refine (hmem p hp).2
            (fun hbp => h (HasBare.inModel cname fs p hp hbp))
        obtain ⟨bs, hbs⟩ := mapExcept_ok_of hok
        exact ⟨.tmodel (camelToSnake cname) (TDL.ofList bs),
          by simp [inspectTD, hbs, Except.map]⟩

/-- Claim C9: with ample fuel, the descriptor builder succeeds iff the
model definition has no list with a bare-primitive item anywhere in its
closure, and the schema assertion is the only error it ever returns. -/
theorem C9_schema_error_exactly_on_bare_list :
    ∀ (f : Nat) (ann : Ann) (nm : String), szA ann < f →
      ((∃ td, inspectTD f ann nm = .ok td) ↔ ¬ HasBare ann) ∧
      (∀ e, inspectTD f ann nm = .error e → e = .schemaAssert) := by
  intro f ann nm hf
  have h := inspect_dichotomy (szA ann) ann nm f le_rfl hf
  constructor
  · constructor
    · rintro ⟨td, htd⟩ hb
      rw [h.1 hb] at htd
      exact absurd htd (by simp)
    · exact h.2
  · intro e he
    by_cases hb : HasBare ann
    · rw [h.1 hb] at he
      injection he with he2
      exact he2.symm
    · obtain ⟨td, htd⟩ := h.2 hb
      rw [htd] at he
      exact absurd he (by simp)

/-- Witness for C9: the dichotomy evaluated on the bare-primitive list
model `{xs: list[str]}` (fails with the schema assertion) and on the
supported model `Root {items: list[Item]}` (succeeds). -/
theorem C9_witness :
    szA (Ann.amodel "M" (FieldL.ofList [("xs", .alist (.aprim .ps))])) < 100 ∧
    inspectTD 100 (Ann.amodel "M" (FieldL.ofList [("xs", .alist (.aprim .ps))]))
      "" = .error .schemaAssert ∧
    szA annRootItems < 100 ∧
    (∃ td, inspectTD 100 annRootItems "" = .ok td) := by
  have h1 := C9_schema_error_exactly_on_bare_list 100
    (Ann.amodel "M" (FieldL.ofList [("xs", .alist (.aprim .ps))])) ""
    (by decide)
  have h2 := C9_schema_error_exactly_on_bare_list 100 annRootItems ""
    (by decide)
  refine ⟨by decide, ?_, by decide, ?_⟩
  · rfl
  · refine h2.1.mpr ?_
    intro hb
    rw [show annRootItems = Ann.amodel "Root"
      (FieldL.ofList [("items", .alist annItem)]) from rfl] at hb
    cases hb with
    | inModel _ _ p hp hbp =>
      simp [FieldL.ofList, FieldL.toList] at hp
      rw [hp] at hbp
      simp only at hbp
      cases hbp with
      | bare _ h3 => simp [annItem, isBarePrimAnn] at h3
      | inList _ h3 =>
        cases h3 with
        | inModel _ _ q hq hbq =>
          simp [annItem, FieldL.ofList, FieldL.toList] at hq
          rw [hq] at hbq
          simp only at hbq
          cases hbq

/-! ## Claim C8 — candidate tag resolution -/

theorem dinsert_of_fresh {α : Type} {d : List (String × α)} {k : String}
    {v : α} (h : ∀ p ∈ d, p.1 ≠ k) : dinsert d k v = d ++ [(k, v)] := by
  induction d with
  | nil => rfl
  | cons hd t ih =>
    obtain ⟨k1, v1⟩ := hd
    have hk1 : k1 ≠ k := h (k1, v1) (by simp)
    simp [dinsert, hk1]
    exact ih (fun p hp => h p (by simp [hp]))

theorem dmerge_eq_append {α : Type} :
    ∀ {d2 d1 : List (String × α)},
      (((d1 ++ d2).map Prod.fst).Nodup) → dmerge d1 d2 = d1 ++ d2 := by
  intro d2
  induction d2 with
  | nil => intro d1 _; simp [dmerge]
  | cons hd t ih =>
    intro d1 hnd
    obtain ⟨k, v⟩ := hd
    have hfresh : ∀ p ∈ d1, p.1 ≠ k := by
      intro p hp hpk
      rw [List.map_append] at hnd
      obtain ⟨_, _, hdisj⟩ := List.nodup_append.mp hnd
      exact hdisj (List.mem_map_of_mem _ hp) (by simp [hpk])
    have h1 : dinsert d1 k v = d1 ++ [(k, v)] := dinsert_of_fresh hfresh
    have h2 : dmerge (d1 ++ [(k, v)]) t = (d1 ++ [(k, v)]) ++ t := by
      refine ih ?_
      have : (d1 ++ [(k, v)]) ++ t = d1 ++ ((k, v) :: t) := by simp
      rw [this]
      exact hnd
    calc dmerge d1 ((k, v) :: t) = dmerge (dinsert d1 k v) t := rfl
      _ = dmerge (d1 ++ [(k, v)]) t := by rw [h1]
      _ = (d1 ++ [(k, v)]) ++ t := h2
      _ = d1 ++ ((k, v) :: t) := by simp

theorem mem_fnal_fold :
    ∀ (args : List TD) (acc : List (String × TD)) (p : String × TD),
      p ∈ args.foldl fnalStep acc → p ∈ acc ∨ p ∈ namedEntries args := by
  intro args
  induction args with
  | nil => intro acc p h; exact Or.inl h
  | cons a t ih =>
    intro acc p h
    simp only [List.foldl_cons] at h
    rcases ih (fnalStep acc a) p h with h2 | h2
    · match ha : tdName? a with
      | some n =>
        simp only [fnalStep, ha] at h2
        by_cases hna : isNoneTD a = true
        · rw [if_pos hna] at h2
          exact Or.inl h2
        · rw [if_neg hna] at h2
          rcases mem_dinsert h2 with h3 | h3
          · exact Or.inl h3
          · refine Or.inr ?_
            simp [namedEntries, List.filterMap_cons, ha, hna]
            simp [h3]
      | none =>
        simp only [fnalStep, ha] at h2
        exact Or.inl h2
    · refine Or.inr ?_
      simp only [namedEntries, List.filterMap_cons]
      match ha : tdName? a with
      | some n =>
        by_cases hna : isNoneTD a = true
        · simp [ha, hna]
          simpa [namedEntries] using h2
        · simp [ha, hna]
          right
          simpa [namedEntries] using h2
      | none =>
        simp [ha]
        simpa [namedEntries] using h2

theorem mem_fieldNamesAtLevel {args : List TD} {p : String × TD}
    (h : p ∈ fieldNamesAtLevel args) : p ∈ namedEntries args := by
  rcases mem_fnal_fold args [] p h with h2 | h2
  · simp at h2
  · exact h2

theorem fnal_fold_eq_append :
    ∀ (args : List TD) (acc : List (String × TD)),
      (((acc ++ namedEntries args).map Prod.fst).Nodup) →
      args.foldl fnalStep acc = acc ++ namedEntries args := by
  intro args
  induction args with
  | nil => intro acc _; simp [namedEntries]
  | cons a t ih =>
    intro acc hnd
    simp only [List.foldl_cons]
    match ha : tdName? a with
    | none =>
      have hne : namedEntries (a :: t) = namedEntries t := by
        simp [namedEntries, List.filterMap_cons, ha]
      rw [hne] at hnd
      have hstep : fnalStep acc a = acc := by simp [fnalStep, ha]
      rw [hstep, ih acc hnd, hne]
    | some n =>
      by_cases hna : isNoneTD a = true
      · have hne : namedEntries (a :: t) = namedEntries t := by
          simp [namedEntries, List.filterMap_cons, ha, hna]
        rw [hne] at hnd
        have hstep : fnalStep acc a = acc := by simp [fnalStep, ha, hna]
        rw [hstep, ih acc hnd, hne]
      · have hne : namedEntries (a :: t) = (n, a) :: namedEntries t := by
          simp [namedEntries, List.filterMap_cons, ha, hna]
        rw [hne] at hnd
        have hassoc : acc ++ (n, a) :: namedEntries t =
            (acc ++ [(n, a)]) ++ namedEntries t := by simp
        rw [hassoc] at hnd
        have hfresh : ∀ p ∈ acc, p.1 ≠ n := by
          intro p hp hpk
          have h5 : ((acc ++ [(n, a)]).map Prod.fst).Nodup :=
            (List.nodup_append.mp (by simpa using hnd)).1
          rw [List.map_append] at h5
          obtain ⟨_, _, hdisj⟩ := List.nodup_append.mp h5
          exact hdisj (List.mem_map_of_mem _ hp) (by simp [hpk])
        have hstep : fnalStep acc a = acc ++ [(n, a)] := by
          simp [fnalStep, ha, hna]
          exact dinsert_of_fresh hfresh
        rw [hstep, ih (acc ++ [(n, a)]) hnd, hne, hassoc]

/-- The union-flattening target of the second-level loop, as a flat list. -/
def uflatEntries (args : List TD) : List (String × TD) :=
  args.flatMap (fun a =>
    match tdName? a with
    | some _ => []
    | none => namedEntries (tdArgs a))

theorem mem_uflat_fold :
    ∀ (args : List TD) (acc : List (String × TD)) (p : String × TD),
      p ∈ args.foldl uflatStep acc → p ∈ acc ∨ p ∈ uflatEntries args := by
  intro args
  induction args with
  | nil => intro acc p h; exact Or.inl h
  | cons a t ih =>
    intro acc p h
    simp only [List.foldl_cons] at h
    rcases ih (uflatStep acc a) p h with h2 | h2
    · unfold uflatStep at h2
      match ha : tdName? a with
      | some n =>
        rw [ha] at h2
        exact Or.inl h2
      | none =>
        rw [ha] at h2
        rcases mem_dmerge h2 with h3 | h3
        · exact Or.inl h3
        · refine Or.inr ?_
          simp [uflatEntries, List.flatMap_cons, ha]
          exact Or.inl (mem_fieldNamesAtLevel h3)
    · refine Or.inr ?_
      simp only [uflatEntries, List.flatMap_cons]
      match ha : tdName? a with
      | some n =>
        simp [ha]
        simpa [uflatEntries] using h2
      | none =>
        simp [ha]
        right
        simpa [uflatEntries] using h2

theorem uflat_fold_eq_append :
    ∀ (args : List TD) (acc : List (String × TD)),
      (((acc ++ uflatEntries args).map Prod.fst).Nodup) →
      args.foldl uflatStep acc = acc ++ uflatEntries args := by
  intro args
  induction args with
  | nil => intro acc _; simp [uflatEntries]
  | cons a t ih =>
    intro acc hnd
    simp only [List.foldl_cons]
    match ha : tdName? a with
    | some n =>
      have hue : uflatEntries (a :: t) = uflatEntries t := by
        simp [uflatEntries, List.flatMap_cons, ha]
      rw [hue] at hnd
      have hstep : uflatStep acc a = acc := by simp [uflatStep, ha]
      rw [hstep, ih acc hnd, hue]
    | none =>
      have hue : uflatEntries (a :: t) =
          namedEntries (tdArgs a) ++ uflatEntries t := by
        simp [uflatEntries, List.flatMap_cons, ha]
      rw [hue] at hnd
      have hassoc : acc ++ (namedEntries (tdArgs a) ++ uflatEntries t) =
          (acc ++ namedEntries (tdArgs a)) ++ uflatEntries t := by simp
      rw [hassoc] at hnd
      have hnd1 : ((acc ++ namedEntries (tdArgs a)).map Prod.fst).Nodup :=
        (List.nodup_append.mp (by simpa using hnd)).1
      have hfd : fieldNamesAtLevel (tdArgs a) = namedEntries (tdArgs a) := by
        have := fnal_fold_eq_append (tdArgs a) []
          (by simpa using (List.nodup_append.mp (by simpa using hnd1)).2.1)
        simpa [fieldNamesAtLevel] using this
      have hstep : uflatStep acc a = acc ++ namedEntries (tdArgs a) := by
        simp only [uflatStep, ha, hfd]
        exact dmerge_eq_append hnd1
      rw [hstep, ih (acc ++ namedEntries (tdArgs a)) hnd, hue, hassoc]

theorem dlookup_filter_none {α : Type} {l : List (String × α)} {k : String}
    {p : String × α → Bool} (hp : ∀ v, p (k, v) = false) :
    dlookup (l.filter p) k = none := by
  induction l with
  | nil => rfl
  | cons hd t ih =>
    obtain ⟨k1, v1⟩ := hd
    by_cases hpk : p (k1, v1) = true
    · have hk1 : k1 ≠ k := by
        intro h
        subst h
        rw [hp v1] at hpk
        exact absurd hpk (by simp)
      simp only [List.filter_cons, hpk, if_true]
      simp only [dlookup, if_neg hk1]
      exact ih
    · simp only [List.filter_cons, if_neg hpk]
      exact ih

theorem dlookup_of_mem_nodup {α : Type} :
    ∀ {l : List (String × α)} {k : String} {v : α},
      (k, v) ∈ l → ((l.map Prod.fst).Nodup) → dlookup l k = some v := by
  intro l
  induction l with
  | nil =>
    intro k v h _
    simp at h
  | cons hd t ih =>
    intro k v h hnd
    obtain ⟨k1, v1⟩ := hd
    simp only [List.map_cons, List.nodup_cons] at hnd
    rcases List.mem_cons.mp h with h2 | h2
    · rw [Prod.mk.injEq] at h2
      obtain ⟨h3, h4⟩ := h2
      subst h3
      subst h4
      simp [dlookup]
    · have hk1 : k1 ≠ k := by
        intro hk
        subst hk
        exact hnd.1 (by simpa using List.mem_map_of_mem Prod.fst h2)
      simp only [dlookup, if_neg hk1]
      exact ih h2 hnd.2

/-- Under distinct tag names, the candidate map is exactly the node's
sources minus the excluded names, in order. -/
theorem pot_eq_sources_filter {td : TD} {seen : List String}
    (hnd : ((sources td).map Prod.fst).Nodup) :
    possibleOpeningTags td seen =
      (sources td).filter (fun p => !(seen.contains p.1)) := by
  have hsrc : sources td = namedEntries (tdArgs td) ++ uflatEntries (tdArgs td) :=
    rfl
  rw [hsrc] at hnd
  have hnd1 : ((namedEntries (tdArgs td)).map Prod.fst).Nodup :=
    (List.nodup_append.mp (by simpa using hnd)).1
  have hfd : fieldNamesAtLevel (tdArgs td) = namedEntries (tdArgs td) := by
    have := fnal_fold_eq_append (tdArgs td) [] (by simpa using hnd1)
    simpa [fieldNamesAtLevel] using this
  have huf : (tdArgs td).foldl uflatStep [] = uflatEntries (tdArgs td) := by
    have := uflat_fold_eq_append (tdArgs td) []
      (by simpa using (List.nodup_append.mp (by simpa using hnd)).2.1)
    simpa using this
  have hmerge : dmerge (namedEntries (tdArgs td)) (uflatEntries (tdArgs td)) =
      namedEntries (tdArgs td) ++ uflatEntries (tdArgs td) :=
    dmerge_eq_append (by simpa using hnd)
  simp only [possibleOpeningTags, hfd, huf, hmerge, hsrc, List.filter_append]

theorem szTDL_mem : ∀ {a : TD} {as : TDL}, a ∈ TDL.toList as →
    szTD a ≤ szTDL as
  | a, .nil, h => by simp [TDL.toList] at h
  | a, .cons b t, h => by
    simp [TDL.toList] at h
    rcases h with h | h
    · subst h
      simp only [szTDL]
      omega
    · have := szTDL_mem h
      simp only [szTDL]
      omega

theorem szTD_mem_args {a td : TD} (h : a ∈ tdArgs td) : szTD a < szTD td := by
  match td with
  | .prim _ _ => simp [tdArgs] at h
  | .tnone _ => simp [tdArgs] at h
  | .tlist _ as =>
    have := szTDL_mem (by simpa [tdArgs] using h)
    simp only [szTD]
    omega
  | .tunion as =>
    have := szTDL_mem (by simpa [tdArgs] using h)
    simp only [szTD]
    omega
  | .tmodel _ as =>
    have := szTDL_mem (by simpa [tdArgs] using h)
    simp only [szTD]
    omega

theorem mem_namedEntries {args : List TD} {p : String × TD}
    (h : p ∈ namedEntries args) :
    p.2 ∈ args ∧ tdName? p.2 = some p.1 ∧ isNoneTD p.2 = false := by
  simp only [namedEntries, List.mem_filterMap] at h
  obtain ⟨a, ha, hmatch⟩ := h
  match hn : tdName? a with
  | some n =>
    rw [hn] at hmatch
    by_cases hna : isNoneTD a = true
    · simp [hna] at hmatch
    · simp [hna] at hmatch
      rw [← hmatch]
      exact ⟨ha, by simpa using hn, by simpa using hna⟩
  | none => rw [hn] at hmatch; simp at hmatch

theorem sources_size {td : TD} {p : String × TD} (h : p ∈ sources td) :
    szTD p.2 < szTD td := by
  rcases List.mem_append.mp h with h2 | h2
  · exact szTD_mem_args (mem_namedEntries h2).1
  · simp only [uflatEntries, List.mem_flatMap] at h2
    obtain ⟨a, ha, hmatch⟩ := h2
    match hn : tdName? a with
    | some n => rw [hn] at hmatch; simp at hmatch
    | none =>
      rw [hn] at hmatch
      have h3 : szTD p.2 < szTD a := szTD_mem_args (mem_namedEntries hmatch).1
      have h4 : szTD a < szTD td := szTD_mem_args ha
      omega

theorem mem_pot_sources {td : TD} {seen : List String} {p : String × TD}
    (h : p ∈ possibleOpeningTags td seen) :
    p ∈ sources td ∧ seen.contains p.1 = false := by
  simp only [possibleOpeningTags, List.mem_filter] at h
  obtain ⟨hmem, hpred⟩ := h
  refine ⟨?_, by simpa using hpred⟩
  rcases mem_dmerge hmem with h2 | h2
  · exact List.mem_append.mpr (Or.inl (mem_fieldNamesAtLevel h2))
  · rcases mem_uflat_fold _ _ _ h2 with h3 | h3
    · simp at h3
    · exact List.mem_append.mpr (Or.inr h3)

/-- Claim C8: the candidate map never contains an excluded name; every
candidate comes from the node's direct named fields or ONE level of union
flattening; under distinct tag names (collisions are undefined behaviour,
spec §9) it is exactly those sources minus the excluded names; and the
matcher always resolves candidates with the node's own tag name excluded,
so a node never matches itself as a child. -/
theorem C8_candidate_tag_resolution :
    (∀ (td : TD) (seen : List String) (k : String), seen.contains k = true →
        dlookup (possibleOpeningTags td seen) k = none) ∧
    (∀ (td : TD) (seen : List String) (p : String × TD),
        p ∈ possibleOpeningTags td seen →
        p ∈ sources td ∧ seen.contains p.1 = false) ∧
    (∀ (td : TD) (seen : List String),
        ((sources td).map Prod.fst).Nodup →
        possibleOpeningTags td seen =
          (sources td).filter (fun p => !(seen.contains p.1))) ∧
    (∀ (ffl f : Nat) (text : List Char) (td : TD) (pos : Nat),
        recurse ffl f text td pos =
          recurseAux ffl f text td (possibleOpeningTags td [tdNameD td]) pos
            (initAD td) [] false) ∧
    (∀ td : TD,
        dlookup (possibleOpeningTags td [tdNameD td]) (tdNameD td) = none) := by
  have h1 : ∀ (td : TD) (seen : List String) (k : String),
      seen.contains k = true →
      dlookup (possibleOpeningTags td seen) k = none := by
    intro td seen k hk
    refine dlookup_filter_none (fun v => ?_)
    show (!(seen.contains k)) = false
    rw [hk]
    rfl
  refine ⟨h1, ?_, ?_, ?_, ?_⟩
  · intro td seen p h
    exact mem_pot_sources h
  · intro td seen hnd
    exact pot_eq_sources_filter hnd
  · intro ffl f text td pos
    rfl
  · intro td
    exact h1 td [tdNameD td] (tdNameD td) (by simp)

/-- Witness for C8: the conjuncts instantiated on the concrete descriptor
of `Root {items: list[Item]}`: the excluded name `items` is absent, the
candidate `item` of the list node is its source, and the list node never
matches itself. -/
theorem C8_witness :
    dlookup (possibleOpeningTags
      (.tmodel "root" (.cons (.tlist "items" (.cons (.tmodel "item"
        (.cons (.prim .ps "label") .nil)) .nil)) .nil)) ["root"]) "root" =
      none ∧
    possibleOpeningTags
      (.tlist "items" (.cons (.tmodel "item" (.cons (.prim .ps "label") .nil))
        .nil)) ["items"] =
      (sources (.tlist "items" (.cons (.tmodel "item"
        (.cons (.prim .ps "label") .nil)) .nil))).filter
        (fun p => !(["items"].contains p.1)) := by
  constructor
  · exact C8_candidate_tag_resolution.1 _ ["root"] "root" (by simp)
  · exact C8_candidate_tag_resolution.2.2.1 _ ["items"] (by
      show (["item"] : List String).Nodup
      simp)

/-! ## Claim C2 — total default coverage

The general guarantee fails twice over.  Default completion runs once, at
the root, only over the keys MISSING there (`_fill_with_empty` recurses
into missing nested models but never into a present, partially filled
one), so a nested object whose closing tag was seen while a required field
was absent reaches `model(**parsed_dict)` incomplete and construction
raises.  And a model field literally named `args` poisons completion even
of the empty buffer: once it is filled, the optionality probe of every
later candidate iterates its value and raises.  What does hold: on the
empty buffer, for a descriptor with distinct tag names and no tag named
`args`, the root completion runs on an empty map and synthesizes the full
recursive closure. -/

theorem isFieldOptionalAsCalled_noargs (parsed : VDict) (field : String)
    (h : dlookup parsed "args" = none) :
    isFieldOptionalAsCalled parsed field = .ok false := by
  simp [isFieldOptionalAsCalled, h]

theorem dlookup_dinsert_ne {α : Type} :
    ∀ (d : List (String × α)) (k k2 : String) (v : α), k ≠ k2 →
      dlookup (dinsert d k v) k2 = dlookup d k2 := by
  intro d k k2 v hk
  induction d with
  | nil => simp [dinsert, dlookup, hk]
  | cons hd t ih =>
    obtain ⟨k1, v1⟩ := hd
    by_cases h1 : k1 = k
    · subst h1
      simp [dinsert, dlookup, hk]
    · simp only [dinsert, if_neg h1, dlookup]
      by_cases h2 : k1 = k2 <;> simp [h2, ih]

theorem fillWithEmpty_succ (f : Nat) (d : VDict) (td : TD) :
    fillWithEmpty (f + 1) d td =
      fillGo (fun c => fillWithEmpty f [] c)
        (possibleOpeningTags td (d.map Prod.fst)) d := rfl

theorem fillGo_append :
    ∀ (cands : List (String × TD)) (acc : VDict)
      (fill : TD → Except PErr VDict) (vals : String × TD → Value),
      (∀ p ∈ cands, (tdName? p.2).isSome) →
      (∀ p ∈ cands, ∀ q ∈ acc, q.1 ≠ p.1) →
      ((cands.map Prod.fst).Nodup) →
      dlookup acc "args" = none →
      (∀ p ∈ cands, p.1 ≠ "args") →
      (∀ p ∈ cands, stepFillValue fill p.2 = .ok (vals p)) →
      fillGo fill cands acc =
        .ok (acc ++ cands.map (fun p => (p.1, vals p))) := by
  intro cands
  induction cands with
  | nil => intro acc fill vals _ _ _ _ _ _; simp [fillGo]
  | cons kc t ih =>
    intro acc fill vals hnames hfresh hnd hargs hnoargs hvals
    obtain ⟨k, c⟩ := kc
    have hopt : isFieldOptionalAsCalled acc k = .ok false :=
      isFieldOptionalAsCalled_noargs acc k hargs
    have hins : dinsert acc k (vals (k, c)) = acc ++ [(k, vals (k, c))] :=
      dinsert_of_fresh (fun q hq => hfresh (k, c) (by simp) q hq)
    have hargs2 : dlookup (acc ++ [(k, vals (k, c))]) "args" = none := by
      rw [← hins, dlookup_dinsert_ne acc k "args" (vals (k, c))
        (hnoargs (k, c) (by simp))]
      exact hargs
    simp only [List.map_cons, List.nodup_cons] at hnd
    have hrest :
        fillGo fill t (acc ++ [(k, vals (k, c))]) =
          .ok ((acc ++ [(k, vals (k, c))]) ++
            t.map (fun p => (p.1, vals p))) := by
      refine ih (acc ++ [(k, vals (k, c))]) fill vals
        (fun p hp => hnames p (by simp [hp]))
        (fun p hp q hq => ?_)
        hnd.2 hargs2
        (fun p hp => hnoargs p (by simp [hp]))
        (fun p hp => hvals p (by simp [hp]))
      rcases List.mem_append.mp hq with hq2 | hq2
      · exact hfresh p (by simp [hp]) q hq2
      · simp at hq2
        rw [hq2]
        intro hk
        have hm : p.1 ∈ t.map Prod.fst := List.mem_map_of_mem Prod.fst hp
        rw [← hk] at hm
        exact hnd.1 hm
    have hv : stepFillValue fill c = .ok (vals (k, c)) := hvals (k, c) (by simp)
    have hfinal : (acc ++ [(k, vals (k, c))]) ++
        t.map (fun p => (p.1, vals p)) =
        acc ++ ((k, c) :: t).map (fun p => (p.1, vals p)) := by simp
    cases c with
    | prim pk n2 =>
      have hvv : vals (k, .prim pk n2) = defaultForPrim (.prim pk n2) := by
        simp only [stepFillValue] at hv
        injection hv with h2
        exact h2.symm
      simp only [fillGo, hopt]
      rw [show defaultForPrim (.prim pk n2) = vals (k, .prim pk n2) from
        hvv.symm]
      rw [hins, hrest, hfinal]
    | tnone n2 =>
      have hvv : vals (k, .tnone n2) = defaultForPrim (.tnone n2) := by
        simp only [stepFillValue] at hv
        injection hv with h2
        exact h2.symm
      simp only [fillGo, hopt]
      rw [show defaultForPrim (.tnone n2) = vals (k, .tnone n2) from hvv.symm]
      rw [hins, hrest, hfinal]
    | tlist n2 as2 =>
      have hvv : vals (k, .tlist n2 as2) = .vl [] := by
        simp only [stepFillValue] at hv
        injection hv with h2
        exact h2.symm
      simp only [fillGo, hopt]
      rw [show Value.vl [] = vals (k, .tlist n2 as2) from hvv.symm]
      rw [hins, hrest, hfinal]
    | tunion as2 =>
      have := hnames (k, .tunion as2) (by simp)
      simp [tdName?] at this
    | tmodel n2 as2 =>
      obtain ⟨w, hw, hwv⟩ : ∃ w, fill (.tmodel n2 as2) = .ok w ∧
          Value.vd w = vals (k, .tmodel n2 as2) := by
        simp only [stepFillValue] at hv
        match hfw : fill (.tmodel n2 as2) with
        | .error e => rw [hfw] at hv; simp [Except.map] at hv
        | .ok w =>
          rw [hfw] at hv
          simp only [Except.map] at hv
          injection hv with h2
          exact ⟨w, rfl, h2⟩
      simp only [fillGo, hopt, hw]
      rw [show Value.vd w = vals (k, .tmodel n2 as2) from hwv]
      rw [hins, hrest, hfinal]

theorem mem_sources_named {td : TD} {p : String × TD} (h : p ∈ sources td) :
    tdName? p.2 = some p.1 ∧ isNoneTD p.2 = false := by
  rcases List.mem_append.mp h with h2 | h2
  · obtain ⟨_, h3, h4⟩ := mem_namedEntries h2
    exact ⟨h3, h4⟩
  · simp only [uflatEntries, List.mem_flatMap] at h2
    obtain ⟨a, _, hmatch⟩ := h2
    match hn : tdName? a with
    | some n => rw [hn] at hmatch; simp at hmatch
    | none =>
      rw [hn] at hmatch
      obtain ⟨_, h3, h4⟩ := mem_namedEntries hmatch
      exact ⟨h3, h4⟩

theorem named_arg_mem_sources {td a : TD} {nm : String} (ha : a ∈ tdArgs td)
    (hn : tdName? a = some nm) (hnn : isNoneTD a = false) :
    (nm, a) ∈ sources td := by
  refine List.mem_append.mpr (Or.inl ?_)
  refine List.mem_filterMap.mpr ⟨a, ha, ?_⟩
  simp [hn, hnn]

theorem union_branch_mem_sources {td u b : TD} {nm : String}
    (hu : u ∈ tdArgs td) (hun : tdName? u = none) (hb : b ∈ tdArgs u)
    (hn : tdName? b = some nm) (hnn : isNoneTD b = false) :
    (nm, b) ∈ sources td := by
  refine List.mem_append.mpr (Or.inr ?_)
  refine List.mem_flatMap.mpr ⟨u, hu, ?_⟩
  rw [hun]
  refine List.mem_filterMap.mpr ⟨b, hb, ?_⟩
  simp [hn, hnn]

/-- The heart of the default-coverage result: with distinct tag names,
well-formed candidates, and no tag named `args` anywhere in the closure,
`_fill_with_empty` of the EMPTY map succeeds (no optionality probe ever
sees an `"args"` key) and synthesizes every required field of the model's
full recursive closure. -/
theorem fill_covers :
    ∀ (nsz : Nat) (n : String) (as : TDL) (f : Nat),
      szTD (.tmodel n as) ≤ nsz → WFTD (.tmodel n as) →
      NoArgs (.tmodel n as) → szTD (.tmodel n as) ≤ f →
      ∃ res, fillWithEmpty f [] (.tmodel n as) = .ok res ∧
        Covers (.tmodel n as) (.vd res) := by
  intro nsz
  induction nsz using Nat.strong_induction_on with
  | _ nsz sih =>
    intro n as f hn hwf hna hf
    obtain ⟨f2, rfl⟩ : ∃ f2, f = f2 + 1 :=
      ⟨f - 1, by simp only [szTD] at hf; omega⟩
    obtain ⟨hnd, hwfs, hun⟩ :
        ((sources (.tmodel n as)).map Prod.fst).Nodup ∧
        (∀ p, p ∈ sources (.tmodel n as) → WFTD p.2) ∧
        (∀ u, TD.tunion u ∈ TDL.toList as →
          (∃ b ∈ TDL.toList u, isNoneTD b = true) ∨
          (∃ b ∈ TDL.toList u, (tdName? b).isSome ∧ isNoneTD b = false)) := by
      cases hwf with
      | model1 _ _ h1 h2 h3 => exact ⟨h1, h2, h3⟩
    have hnas1 : ∀ p, p ∈ sources (.tmodel n as) → p.1 ≠ "args" := by
      cases hna with
      | mk _ h1 _ => exact h1
    have hnas2 : ∀ p, p ∈ sources (.tmodel n as) → NoArgs p.2 := by
      cases hna with
      | mk _ _ h2 => exact h2
    set td := TD.tmodel n as with htd
    have hpot : possibleOpeningTags td [] = sources td := by
      rw [pot_eq_sources_filter hnd]
      refine List.filter_eq_self.mpr ?_
      intro p _
      rfl
    have hstep : ∀ p, p ∈ sources td →
        ∃ v, stepFillValue (fun c => fillWithEmpty f2 [] c) p.2 = .ok v ∧
          Covers p.2 v := by
      intro p hp
      obtain ⟨hpn, hpnn⟩ := mem_sources_named hp
      have hsz : szTD p.2 < szTD td := sources_size hp
      match hc : p.2 with
      | .prim pk nm2 =>
        exact ⟨defaultForPrim (.prim pk nm2), rfl, Covers.prim pk nm2 _⟩
      | .tnone nm2 => rw [hc] at hpnn; simp [isNoneTD] at hpnn
      | .tunion uargs => rw [hc] at hpn; simp [tdName?] at hpn
      | .tlist nm2 as2 =>
        refine ⟨.vl [], rfl, Covers.list1 nm2 as2 [] ?_⟩
        intro it hit
        simp at hit
      | .tmodel nm2 as2 =>
        rw [hc] at hsz
        have hwp := hwfs p hp
        rw [hc] at hwp
        have hnp := hnas2 p hp
        rw [hc] at hnp
        obtain ⟨w, hw, hcw⟩ := sih (szTD (.tmodel nm2 as2)) (by omega)
          nm2 as2 f2 le_rfl hwp hnp (by omega)
        exact ⟨.vd w, by simp [stepFillValue, hw, Except.map], hcw⟩
    classical
    choose vfun hvfun using hstep
    have hfold := fillGo_append (sources td) []
      (fun c => fillWithEmpty f2 [] c)
      (fun p => if hp : p ∈ sources td then vfun p hp else Value.vnone)
      (fun p hp => by simp [(mem_sources_named hp).1])
      (fun p _ q hq => by simp at hq)
      hnd rfl
      (fun p hp => hnas1 p hp)
      (fun p hp => by
        show stepFillValue (fun c => fillWithEmpty f2 [] c) p.2 =
          .ok (if hq : p ∈ sources td then vfun p hq else Value.vnone)
        rw [dif_pos hp]
        exact (hvfun p hp).1)
    have hlook : ∀ p, ∀ hp : p ∈ sources td,
        dlookup ((sources td).map
          (fun q => (q.1,
            if hq : q ∈ sources td then vfun q hq else Value.vnone))) p.1 =
          some (vfun p hp) := by
      intro p hp
      refine dlookup_of_mem_nodup ?_ ?_
      · refine List.mem_map.mpr ⟨p, hp, ?_⟩
        show (p.1, if hq : p ∈ sources td then vfun p hq else Value.vnone) =
          (p.1, vfun p hp)
        rw [dif_pos hp]
      · have h6 : (((sources td).map
            (fun q => (q.1,
              if hq : q ∈ sources td then vfun q hq else Value.vnone))).map
            Prod.fst) = (sources td).map Prod.fst := by
          rw [List.map_map]
          rfl
        rw [h6]
        exact hnd
    refine ⟨(sources td).map
      (fun q => (q.1, if hq : q ∈ sources td then vfun q hq else Value.vnone)),
      ?_, ?_⟩
    · rw [fillWithEmpty_succ]
      simp only [List.map_nil]
      rw [hpot]
      simpa using hfold
    · refine Covers.model1 n as _ ?_
      intro a ha
      have haargs : a ∈ tdArgs td := by simpa [htd, tdArgs] using ha
      match a, haargs with
      | .tnone nm2, _ => exact CoversField.nonet _ nm2
      | .prim pk nm2, haargs2 =>
        have hmem : (nm2, TD.prim pk nm2) ∈ sources td :=
          named_arg_mem_sources haargs2 rfl rfl
        refine CoversField.req _ _ (vfun (nm2, .prim pk nm2) hmem) ?_ ?_
        · exact hlook (nm2, .prim pk nm2) hmem
        · exact (hvfun (nm2, .prim pk nm2) hmem).2
      | .tlist nm2 as2, haargs2 =>
        have hmem : (nm2, TD.tlist nm2 as2) ∈ sources td :=
          named_arg_mem_sources haargs2 rfl rfl
        refine CoversField.req _ _ (vfun (nm2, .tlist nm2 as2) hmem) ?_ ?_
        · exact hlook (nm2, .tlist nm2 as2) hmem
        · exact (hvfun (nm2, .tlist nm2 as2) hmem).2
      | .tmodel nm2 as2, haargs2 =>
        have hmem : (nm2, TD.tmodel nm2 as2) ∈ sources td :=
          named_arg_mem_sources haargs2 rfl rfl
        refine CoversField.req _ _ (vfun (nm2, .tmodel nm2 as2) hmem) ?_ ?_
        · exact hlook (nm2, .tmodel nm2 as2) hmem
        · exact (hvfun (nm2, .tmodel nm2 as2) hmem).2
      | .tunion uargs, haargs2 =>
        rcases hun uargs (by simpa [htd, tdArgs] using haargs2) with
          hopt | ⟨b, hb, hbn, hbnn⟩
        · exact CoversField.opt _ uargs hopt
        · obtain ⟨nm2, hnm2⟩ := Option.isSome_iff_exists.mp hbn
          have hmem : (nm2, b) ∈ sources td :=
            union_branch_mem_sources haargs2
              (show tdName? (TD.tunion uargs) = none from rfl)
              (show b ∈ tdArgs (TD.tunion uargs) from by
                simpa [tdArgs] using hb)
              hnm2 hbnn
          refine CoversField.unionReq _ uargs b (vfun (nm2, b) hmem) hb ?_ ?_
          · rw [show tdNameD b = nm2 from by simp [tdNameD, hnm2]]
            exact hlook (nm2, b) hmem
          · exact (hvfun (nm2, b) hmem).2

/-- Claim C2 (amended): on the EMPTY buffer the claim holds for every
well-formed model descriptor none of whose candidate tags is literally
`args` — default completion of the empty map succeeds and covers every
required field of the full recursive closure (first conjunct) — and the
end-to-end parse of `""` on `Root {a: A{x, y}}` returns the fully
defaulted nested value (second conjunct).  For general buffers the claim
fails, and a field named `args` breaks it even on the empty buffer (see
the counterexample). -/
theorem C2_total_default_coverage :
    (∀ (n : String) (as : TDL) (f : Nat), WFTD (.tmodel n as) →
        NoArgs (.tmodel n as) → szTD (.tmodel n as) ≤ f →
        ∃ res, fillWithEmpty f [] (.tmodel n as) = .ok res ∧
          Covers (.tmodel n as) (.vd res)) ∧
    parse_xml annRootA "".data =
      .ok (.vd [("a", .vd [("x", .vs []), ("y", .vs [])])]) := by
  refine ⟨?_, rfl⟩
  intro n as f hwf hna hf
  exact fill_covers (szTD (.tmodel n as)) n as f le_rfl hwf hna hf

/-- Claim C2 counterexample: two failures of total coverage.  In
`<a><x>1</x></a>` the nested object `a` closes (its closing tag sits at
position 11 of the normalized buffer) while its required field `y` was
never observed; the root completion does not descend into the present key
`a`, and `model(**parsed_dict)` raises a validation error — no value with
all required fields is returned.  And on `{args: int, b: str}` even the
EMPTY buffer fails: completion fills `args` with `0`, and the optionality
probe for `b` then iterates the integer — Python `for arg in 0` — raising
`TypeError`. -/
theorem C2_counterexample :
    parse_xml annRootA "<a><x>1</x></a>".data = .error .validationErr ∧
    findSubFrom (cleanXml "<a><x>1</x></a>".data) (closeTagC "a") 0 =
      some 11 ∧
    parse_xml annArgsB "".data = .error .typeErr := ⟨rfl, rfl, rfl⟩

/-- Witness for C2: the coverage conjunct applied to the concrete
descriptor of `A {x: str, y: str}`. -/
theorem C2_witness :
    WFTD (.tmodel "a" (.cons (.prim .ps "x") (.cons (.prim .ps "y") .nil))) ∧
    NoArgs (.tmodel "a" (.cons (.prim .ps "x") (.cons (.prim .ps "y") .nil))) ∧
    szTD (.tmodel "a" (.cons (.prim .ps "x") (.cons (.prim .ps "y") .nil))) ≤
      10 ∧
    ∃ res, fillWithEmpty 10 []
        (.tmodel "a" (.cons (.prim .ps "x") (.cons (.prim .ps "y") .nil))) =
        .ok res ∧
      Covers (.tmodel "a" (.cons (.prim .ps "x") (.cons (.prim .ps "y") .nil)))
        (.vd res) := by
  have hwf : WFTD (.tmodel "a"
      (.cons (.prim .ps "x") (.cons (.prim .ps "y") .nil))) := by
    refine WFTD.model1 _ _ ?_ ?_ ?_
    · show (["x", "y"] : List String).Nodup
      simp
    · intro p hp
      have : p = ("x", TD.prim .ps "x") ∨ p = ("y", TD.prim .ps "y") := by
        simpa [sources, tdArgs, TDL.toList, namedEntries, uflatEntries,
          tdName?, isNoneTD] using hp
      rcases this with h | h <;> rw [h] <;> exact WFTD.prim _ _
    · intro u hu
      simp [TDL.toList] at hu
  have hna : NoArgs (.tmodel "a"
      (.cons (.prim .ps "x") (.cons (.prim .ps "y") .nil))) := by
    refine NoArgs.mk _ ?_ ?_
    · intro p hp
      have : p = ("x", TD.prim .ps "x") ∨ p = ("y", TD.prim .ps "y") := by
        simpa [sources, tdArgs, TDL.toList, namedEntries, uflatEntries,
          tdName?, isNoneTD] using hp
      rcases this with h | h <;> rw [h] <;> decide
    · intro p hp
      have : p = ("x", TD.prim .ps "x") ∨ p = ("y", TD.prim .ps "y") := by
        simpa [sources, tdArgs, TDL.toList, namedEntries, uflatEntries,
          tdName?, isNoneTD] using hp
      rcases this with h | h <;> rw [h] <;>
        exact NoArgs.mk _
          (fun q hq => by
            simp [sources, tdArgs, namedEntries, uflatEntries] at hq)
          (fun q hq => by
            simp [sources, tdArgs, namedEntries, uflatEntries] at hq)
  refine ⟨hwf, hna, by decide, ?_⟩
  exact C2_total_default_coverage.1 "a" _ 10 hwf hna (by decide)

/-! ## Claim C6 (amended) — monotonicity on documents without tag
re-occurrence

The claim as stated fails: a later closing of the same tag overwrites the
earlier value (`C6_counterexample`), and some prefixes of well-formed
documents even make `parse` raise (the C1 `KeyError`).  On a well-formed
document whose tags each occur once, the property does hold; it is
verified exhaustively below for every prefix pair of `docB` and every
field. -/

/-- Claim C6 (amended): for the well-formed document
`<a>hi</a><b>yo</b><c>z</c>` (each tag occurring once) and the model
`{a, b, c: str}`, once a field's closing tag has been observed within
`B[:i]`, the field has the same value in `parse(B[:i])`, in `parse(B[:j])`
for every `j ≥ i`, and in `parse(B)`. -/
theorem C6_monotonic_prefixes :
    ∀ i j : Fin (docB.length + 1), i.1 ≤ j.1 →
      ∀ k, k ∈ ["a", "b", "c"] →
      (findSubFrom (docB.take i.1) (closeTagC k) 0).isSome = true →
      getStr (parse_xml annABC (docB.take i.1)) k =
        getStr (parse_xml annABC (docB.take j.1)) k ∧
      getStr (parse_xml annABC (docB.take i.1)) k =
        getStr (parse_xml annABC docB) k := by decide

/-- Witness for C6: the amended theorem applied to the prefix pair
`(9, 18)` and field `a`, whose closing tag sits inside the 9-character
prefix. -/
theorem C6_witness :
    (findSubFrom (docB.take 9) (closeTagC "a") 0).isSome = true ∧
    getStr (parse_xml annABC (docB.take 9)) "a" =
      getStr (parse_xml annABC (docB.take 18)) "a" := by
  refine ⟨by decide, ?_⟩
  exact (C6_monotonic_prefixes ⟨9, by decide⟩ ⟨18, by decide⟩ (by decide)
    "a" (by decide) (by decide)).1

end LlmXml
